import Mathlib

/-!
# Underlay: the shared audio transport and the processor's parameter latch

A shallow embedding of `src/vst/src/SharedAudioBuffer.h` (class
`Underlay::SharedAudioBuffer`) and of the tempo / parameter part of
`src/vst/src/UnderlayVST.cpp` (`UnderlayProcessor::process`,
`UnderlayProcessor::updateParameters`), followed by theorems about them.

Modelling conventions

* A `float` sample is carried by its 32-bit pattern, a `Nat`; the code only
  ever copies samples (`vector::insert`, `memcpy`) or writes all-zero bytes
  (`memset(..., 0, ...)`), so the silence sample is the pattern `0`.
* `std::vector<float>` is a `List Sample`; `size_t` and non-negative `int`
  counts are `Nat` (every size the code computes stays far below `2^32`:
  at most `288000 + 2^31`); `reserve` changes capacity only and has no
  counterpart.
* A `const float*` argument is the memory it addresses, `Nat → Sample`
  (`p i` is `p[i]`); the range `[p, p + n)` read by `insert` is
  `readArray p n`.
* Every member function runs under `lock_guard<mutex>`; the embedding is the
  sequential body, one call being one state transition.
* A finite `double` is the rational it denotes. The subtraction in the tempo
  test is rounded to the nearest `double`, ties to even (`roundDouble`), and
  the literal `0.01` is the `double` it denotes (`tempoEpsilon`); the tempo
  mapping `(tempo - 60) / 140` is read over the rationals, as the
  specification states it. Infinities and NaN are not modelled.
-/

namespace Underlay

/-- The bit pattern of one `float` sample. -/
abbrev Sample := Nat

/-- The range `[p, p + n)` of a `const float*` argument. -/
def readArray (p : Nat → Sample) (n : Nat) : List Sample :=
  (List.range n).map p

/-- The private members of `SharedAudioBuffer` (the mutex apart). -/
structure SharedAudioBuffer where
  leftBuffer_ : List Sample
  rightBuffer_ : List Sample
  readPos_ : Nat
  needsCleanup_ : Bool
deriving DecidableEq

namespace SharedAudioBuffer

/-- The constructor `SharedAudioBuffer() : readPos_(0), needsCleanup_(false) {}`. -/
def fresh : SharedAudioBuffer :=
  { leftBuffer_ := [], rightBuffer_ := [], readPos_ := 0, needsCleanup_ := false }

/-- The local constant `maxCapacity = 48000 * 6` of `pushAudio`. -/
def maxCapacity : Nat := 48000 * 6

/-- The first block of `pushAudio` (lines 27-34): cleanup flagged by the audio thread. -/
def cleanup (s : SharedAudioBuffer) : SharedAudioBuffer :=
  if s.needsCleanup_ = true ∧ s.readPos_ > 0 then
    { leftBuffer_ := s.leftBuffer_.drop s.readPos_
      rightBuffer_ := s.rightBuffer_.drop s.readPos_
      readPos_ := 0
      needsCleanup_ := false }
  else s

/-- The rest of `pushAudio` (lines 44-61): append, then erase the overflow from the front. -/
def appendAndTrim (s : SharedAudioBuffer) (left right : Nat → Sample) (numSamples : Nat) :
    SharedAudioBuffer :=
  let leftBuffer := s.leftBuffer_ ++ readArray left numSamples
  let rightBuffer := s.rightBuffer_ ++ readArray right numSamples
  let maxSize := maxCapacity
  if leftBuffer.length > maxSize then
    let toRemove := leftBuffer.length - maxSize
    { leftBuffer_ := leftBuffer.drop toRemove
      rightBuffer_ := rightBuffer.drop toRemove
      readPos_ := if s.readPos_ > toRemove then s.readPos_ - toRemove else 0
      needsCleanup_ := s.needsCleanup_ }
  else
    { leftBuffer_ := leftBuffer
      rightBuffer_ := rightBuffer
      readPos_ := s.readPos_
      needsCleanup_ := s.needsCleanup_ }

/-- The member `void pushAudio(const float* left, const float* right, int numSamples,
int sampleRate)`; `sampleRate` is only logged. -/
def pushAudio (s : SharedAudioBuffer) (left right : Nat → Sample) (numSamples : Nat)
    (_sampleRate : Int) : SharedAudioBuffer :=
  appendAndTrim (cleanup s) left right numSamples

/-- One iteration of the channel loop of `pullAudio` (lines 71-93): the new state and the
`numSamples` entries written to `outputs[ch]`. -/
def pullChannel (s : SharedAudioBuffer) (ch : Nat) (numSamples : Nat) :
    SharedAudioBuffer × List Sample :=
  let buffer := if ch = 0 then s.leftBuffer_ else s.rightBuffer_
  let availableSamples := if buffer.length > s.readPos_ then buffer.length - s.readPos_ else 0
  let samplesToCopy := min numSamples availableSamples
  let out := (buffer.drop s.readPos_).take samplesToCopy
    ++ List.replicate (numSamples - samplesToCopy) 0
  if ch = 0 then
    let readPos := s.readPos_ + samplesToCopy
    ({ s with readPos_ := readPos
              needsCleanup_ := if readPos > 48000 then true else s.needsCleanup_ }, out)
  else (s, out)

/-- The member `void pullAudio(float** outputs, int numChannels, int numSamples)`: the loop
`for (ch = 0; ch < numChannels && ch < 2; ch++)` unrolled; the result lists, channel by
channel, what was written to `outputs[0]`, `outputs[1]`. -/
def pullAudio (s : SharedAudioBuffer) (numChannels : Int) (numSamples : Nat) :
    SharedAudioBuffer × List (List Sample) :=
  if 0 < numChannels then
    let r0 := pullChannel s 0 numSamples
    if 1 < numChannels then
      let r1 := pullChannel r0.1 1 numSamples
      (r1.1, [r0.2, r1.2])
    else (r0.1, [r0.2])
  else (s, [])

/-- The member `size_t available() const`. -/
def available (s : SharedAudioBuffer) : Nat :=
  if s.leftBuffer_.length > s.readPos_ then s.leftBuffer_.length - s.readPos_ else 0

/-- The member `void clear()`; `needsCleanup_` is not touched. -/
def clear (s : SharedAudioBuffer) : SharedAudioBuffer :=
  { s with leftBuffer_ := [], rightBuffer_ := [], readPos_ := 0 }

end SharedAudioBuffer

/-- One call on the transport, with its arguments. -/
inductive Op where
  | push (left right : Nat → Sample) (numSamples : Nat) (sampleRate : Int)
  | pull (numChannels : Int) (numSamples : Nat)
  | available
  | clear

/-- What a caller observes from one call: the samples `pullAudio` wrote, channel by channel,
the value `available()` returned, or nothing (`pushAudio` and `clear` return `void`). -/
inductive Obs where
  | written (outputs : List (List Sample))
  | count (n : Nat)
  | done
deriving DecidableEq

namespace SharedAudioBuffer

/-- One call: the state after it and what the caller observes. -/
def step (s : SharedAudioBuffer) : Op → SharedAudioBuffer × Obs
  | Op.push left right numSamples sampleRate =>
      (pushAudio s left right numSamples sampleRate, Obs.done)
  | Op.pull numChannels numSamples =>
      ((pullAudio s numChannels numSamples).1, Obs.written (pullAudio s numChannels numSamples).2)
  | Op.available => (s, Obs.count (available s))
  | Op.clear => (clear s, Obs.done)

/-- The observations of a sequence of calls, in call order. -/
def observe (s : SharedAudioBuffer) : List Op → List Obs
  | [] => []
  | op :: ops => (step s op).2 :: observe (step s op).1 ops

/-- The data-model invariant `0 <= readPosition <= len(leftSamples) == len(rightSamples)
<= capacityCeiling`. -/
def Invariant (s : SharedAudioBuffer) : Prop :=
  0 ≤ s.readPos_ ∧ s.readPos_ ≤ s.leftBuffer_.length
    ∧ s.leftBuffer_.length = s.rightBuffer_.length ∧ s.rightBuffer_.length ≤ maxCapacity

instance (s : SharedAudioBuffer) : Decidable (Invariant s) := by
  unfold Invariant; infer_instance

/-- The unconsumed samples of both channels: the entries from `readPos_` on. -/
def pending (s : SharedAudioBuffer) : List Sample × List Sample :=
  (s.leftBuffer_.drop s.readPos_, s.rightBuffer_.drop s.readPos_)

end SharedAudioBuffer

/-- The last `n` entries of a sequence (all of it when it is shorter). -/
def lastSamples (n : Nat) (xs : List Sample) : List Sample :=
  xs.drop (xs.length - n)

/-- The memory behind a pointer to the given samples (silence past their end). -/
def ptr (xs : List Sample) : Nat → Sample := fun i => xs.getD i 0

/-- The arguments of one `pushAudio` call. -/
structure PushCall where
  left : Nat → Sample
  right : Nat → Sample
  numSamples : Nat
  sampleRate : Int

/-- A sequence of `pushAudio` calls, in order. -/
def pushAll (s : SharedAudioBuffer) : List PushCall → SharedAudioBuffer
  | [] => s
  | c :: cs => pushAll (s.pushAudio c.left c.right c.numSamples c.sampleRate) cs

/-- The left samples handed to a sequence of `pushAudio` calls, concatenated. -/
def pushedLeft : List PushCall → List Sample
  | [] => []
  | c :: cs => readArray c.left c.numSamples ++ pushedLeft cs

/-- The right samples handed to a sequence of `pushAudio` calls, concatenated. -/
def pushedRight : List PushCall → List Sample
  | [] => []
  | c :: cs => readArray c.right c.numSamples ++ pushedRight cs

/-- The total sample count of a sequence of `pushAudio` calls. -/
def pushedCount : List PushCall → Nat
  | [] => 0
  | c :: cs => c.numSamples + pushedCount cs

/-- A sequence of `pullAudio` calls (`numChannels`, `numSamples` each): the final state and,
per call, the written channel blocks. -/
def pullAll (s : SharedAudioBuffer) : List (Int × Nat) → SharedAudioBuffer × List (List (List Sample))
  | [] => (s, [])
  | c :: cs =>
      let r := s.pullAudio c.1 c.2
      let rest := pullAll r.1 cs
      (rest.1, r.2 :: rest.2)

/-- The concatenation of what a sequence of `pullAudio` calls wrote to channel `ch`. -/
def channelStream (ch : Nat) (blocks : List (List (List Sample))) : List Sample :=
  (blocks.map (fun b => b.getD ch [])).flatten

/-- One round of the steady-state scenario: a `pushAudio` of `n` samples followed by a
`pullAudio` of `n` samples. -/
structure Round where
  left : Nat → Sample
  right : Nat → Sample
  sampleRate : Int
  numChannels : Int

/-- The state after the rounds `[pushAudio n; pullAudio n]`, in order. -/
def runRounds (n : Nat) (s : SharedAudioBuffer) : List Round → SharedAudioBuffer
  | [] => s
  | r :: rs =>
      runRounds n ((s.pushAudio r.left r.right n r.sampleRate).pullAudio r.numChannels n).1 rs

/-! ## The processor: tempo report and parameter latch (`UnderlayVST.cpp`) -/

/-- The type `Steinberg::Vst::ParamID` (an unsigned 32-bit identifier). -/
abbrev ParamID := Nat

/-- The type `Steinberg::Vst::ParamValue` (a `double`), read over the rationals. -/
abbrev ParamValue := Rat

/-- The enumerator `kParamBPM = 100` of `PluginIDs.h`. -/
def kParamBPM : ParamID := 100

/-- One automation point of an `IParamValueQueue`. -/
structure ParamPoint where
  sampleOffset : Int
  value : ParamValue
deriving DecidableEq

/-- An `IParamValueQueue`: `getParameterId()` is `parameterId`, `getPointCount()` is the
length of `points`, and `getPoint(i, ..)` is `kResultOk` exactly when `points` has an entry
`i`. -/
structure ParamValueQueue where
  parameterId : ParamID
  points : List ParamPoint
deriving DecidableEq

/-- An `IParameterChanges`: `getParameterCount()` is the length and `getParameterData(i)` the
entry `i`, `none` standing for a null queue pointer. -/
abbrev ParameterChanges := List (Option ParamValueQueue)

/-- The part of `ProcessContext` that `process` reads: whether `state & kTempoValid` is set,
and `tempo`, the rational that the `double` field denotes. -/
structure ProcessContext where
  tempoValid : Bool
  tempo : Rat

/-- The bus `data.outputs[0]`: `numChannels` and whether `channelBuffers32` is non-null. -/
structure AudioBusBuffers where
  numChannels : Int
  hasChannelBuffers32 : Bool

/-- The part of `ProcessData` that `process` reads. `outputParameterChanges` is `none` for a
null pointer, and otherwise tells for which ids `addParameterData` hands out a queue;
`outputs` lists the `numOutputs` buses. -/
structure ProcessData where
  processContext : Option ProcessContext
  inputParameterChanges : Option ParameterChanges
  outputParameterChanges : Option (ParamID → Bool)
  outputs : List AudioBusBuffers
  numSamples : Nat

/-- An outbound point: `addParameterData(parameterId, ..)->addPoint(sampleOffset, value, ..)`. -/
structure OutPoint where
  parameterId : ParamID
  sampleOffset : Int
  value : ParamValue
deriving DecidableEq

/-- The integer nearest to `m`, a tie going to the even one. -/
def roundHalfEven (m : Rat) : Int :=
  let f := ⌊m⌋
  if m - f < 1 / 2 then f
  else if m - f > 1 / 2 then f + 1
  else if f % 2 = 0 then f else f + 1

/-- The spacing of the `double`s around a positive `a`: `2 ^ (e - 52)` for
`2 ^ e <= a < 2 ^ (e + 1)`, and `2 ^ (-1074)` in the subnormal range `e < -1022`. -/
def doubleQuantum (a : Rat) : Rat :=
  2 ^ (max (Int.log 2 a) (-1022) - 52)

/-- The `double` nearest to a magnitude `a >= 0` (IEEE 754 binary64, round to nearest, ties
to even); a magnitude beyond the largest `double` stays beyond it. -/
def roundMagnitude (a : Rat) : Rat :=
  if a = 0 then 0 else roundHalfEven (a / doubleQuantum a) * doubleQuantum a

/-- The `double` nearest to `x`: the result of a `double` operation whose exact value is
`x`. -/
def roundDouble (x : Rat) : Rat :=
  if x < 0 then - roundMagnitude (-x) else roundMagnitude x

/-- The value of the `double` literal `0.01`: `5764607523034235 * 2 ^ (-59)`, the `double`
nearest to `1 / 100` (slightly above it). -/
def tempoEpsilon : Rat := 5764607523034235 / 2 ^ 59

/-- The members of `UnderlayProcessor` that `process` touches; `parameters_` is the
`std::map<ParamID, double>`, a key being absent where the function gives `none`. -/
structure UnderlayProcessor where
  parameters_ : ParamID → Option ParamValue
  lastHostTempo_ : Rat
  hostTempoSent_ : Bool

namespace UnderlayProcessor

/-- The member initialisers `lastHostTempo_ = 0.0`, `hostTempoSent_ = false` and the empty
map. -/
def initial : UnderlayProcessor :=
  { parameters_ := fun _ => none, lastHostTempo_ := 0, hostTempoSent_ := false }

/-- Lines 66-67 of `process`: `(hostTempo - 60.0) / 140.0`, then
`std::max(0.0, std::min(1.0, normalizedBPM))`, over the rationals. -/
def normalizedBPM (hostTempo : Rat) : Rat :=
  max 0 (min 1 ((hostTempo - 60) / 140))

/-- Lines 55-81 of `process`: the host tempo check; the new state and the outbound points
added by this call. The test `std::abs(hostTempo - lastHostTempo_) > 0.01` is the `double`
difference, its magnitude, and the `double` literal. -/
def processHostTempo (p : UnderlayProcessor) (data : ProcessData) :
    UnderlayProcessor × List OutPoint :=
  match data.processContext with
  | none => (p, [])
  | some ctx =>
    if ctx.tempoValid = true then
      let hostTempo := ctx.tempo
      if p.hostTempoSent_ = false ∨ |roundDouble (hostTempo - p.lastHostTempo_)| > tempoEpsilon then
        let p1 := { p with lastHostTempo_ := hostTempo, hostTempoSent_ := true }
        match data.outputParameterChanges with
        | none => (p1, [])
        | some addParameterData =>
          if addParameterData kParamBPM = true then
            (p1, [{ parameterId := kParamBPM, sampleOffset := 0, value := normalizedBPM hostTempo }])
          else (p1, [])
      else (p, [])
    else (p, [])

/-- The body of the loop of `updateParameters` (lines 122-135) for one queue pointer. -/
def latchQueue (parameters : ParamID → Option ParamValue) (paramQueue : Option ParamValueQueue) :
    ParamID → Option ParamValue :=
  match paramQueue with
  | none => parameters
  | some q =>
    let paramId := q.parameterId
    let numPoints := q.points.length
    if numPoints > 0 then
      match q.points.get? (numPoints - 1) with
      | some point => fun k => if k = paramId then some point.value else parameters k
      | none => parameters
    else parameters

/-- The member `updateParameters` (lines 116-137), on the map `parameters_`. -/
def updateParameters (parameters : ParamID → Option ParamValue)
    (inputParameterChanges : Option ParameterChanges) : ParamID → Option ParamValue :=
  match inputParameterChanges with
  | none => parameters
  | some changes => changes.foldl latchQueue parameters

/-- What one `process` call leaves behind: the processor, the shared buffer, the outbound
points it added and the channel blocks it wrote. -/
structure ProcessResult where
  processor : UnderlayProcessor
  buffer : SharedAudioBuffer
  outputPoints : List OutPoint
  written : List (List Sample)

/-- The member `process` (lines 54-114); `processMidiInput` has no effect and the result
code is always `kResultOk`. -/
def process (p : UnderlayProcessor) (buffer : SharedAudioBuffer) (data : ProcessData) :
    ProcessResult :=
  let r := processHostTempo p data
  let p2 := { r.1 with parameters_ := updateParameters r.1.parameters_ data.inputParameterChanges }
  match data.outputs with
  | [] => { processor := p2, buffer := buffer, outputPoints := r.2, written := [] }
  | bus :: _ =>
    if bus.numChannels = 0 then
      { processor := p2, buffer := buffer, outputPoints := r.2, written := [] }
    else if bus.hasChannelBuffers32 = false then
      { processor := p2, buffer := buffer, outputPoints := r.2, written := [] }
    else
      let pulled := buffer.pullAudio bus.numChannels data.numSamples
      { processor := p2, buffer := pulled.1, outputPoints := r.2, written := pulled.2 }

/-- A run of `process` calls on one processor and the shared buffer, with no other caller
of the buffer in between: the final state and the outbound points of each call. -/
def processAll (p : UnderlayProcessor) (buffer : SharedAudioBuffer) :
    List ProcessData → UnderlayProcessor × SharedAudioBuffer × List (List OutPoint)
  | [] => (p, buffer, [])
  | data :: rest =>
      let r := process p buffer data
      let tail := processAll r.processor r.buffer rest
      (tail.1, tail.2.1, r.outputPoints :: tail.2.2)

end UnderlayProcessor

/-- The points of a block for one parameter id, in the order the latch meets them. -/
def pointsOf (id : ParamID) : ParameterChanges → List ParamPoint
  | [] => []
  | none :: rest => pointsOf id rest
  | some q :: rest => if q.parameterId = id then q.points ++ pointsOf id rest else pointsOf id rest

/-- A sequence of points in non-decreasing `sampleOffset` order. -/
def OffsetsSorted (points : List ParamPoint) : Prop :=
  points.Pairwise (fun a b => a.sampleOffset ≤ b.sampleOffset)

instance (points : List ParamPoint) : Decidable (OffsetsSorted points) := by
  unfold OffsetsSorted; infer_instance

/-- A process call that carries the valid tempo `t` and can report it. -/
def tempoCall (t : Rat) : ProcessData :=
  { processContext := some { tempoValid := true, tempo := t }
    inputParameterChanges := none
    outputParameterChanges := some (fun _ => true)
    outputs := []
    numSamples := 0 }

/-- The part of the invariant the transitions rely on: the cursor is inside the buffers and
both channels have the same length. -/
def Aligned (s : SharedAudioBuffer) : Prop :=
  s.readPos_ ≤ s.leftBuffer_.length ∧ s.leftBuffer_.length = s.rightBuffer_.length

/-- The first `numSamples` entries of a channel after a pull that finds the unconsumed
samples `u`: as many of them as are there, then silence. -/
def pullOut (u : List Sample) (numSamples : Nat) : List Sample :=
  u.take (min numSamples u.length) ++ List.replicate (numSamples - min numSamples u.length) 0

/-! ## Theorems: the transport -/

open SharedAudioBuffer

theorem length_readArray (p : Nat → Sample) (n : Nat) : (readArray p n).length = n := by
  simp [readArray]

theorem available_eq_length_pending (s : SharedAudioBuffer) :
    s.available = (pending s).1.length := by
  unfold available pending
  simp only [List.length_drop]
  split <;> omega

theorem pending_cleanup (s : SharedAudioBuffer) : pending (cleanup s) = pending s := by
  unfold cleanup
  split
  · simp [pending]
  · rfl

theorem cleanup_wf (s : SharedAudioBuffer)
    (h : s.readPos_ ≤ s.leftBuffer_.length ∧ s.leftBuffer_.length = s.rightBuffer_.length) :
    (cleanup s).readPos_ ≤ (cleanup s).leftBuffer_.length
      ∧ (cleanup s).leftBuffer_.length = (cleanup s).rightBuffer_.length := by
  unfold cleanup
  split
  · simp only [List.length_drop]; omega
  · exact h

theorem drop_append_readArray (buf new : List Sample) (r k : Nat) (hr : r ≤ buf.length) :
    ((buf ++ new).drop k).drop (if r > k then r - k else 0)
      = ((buf.drop r ++ new)).drop (k - r) := by
  rw [List.drop_drop]
  by_cases h : r > k
  · rw [if_pos h]
    have e1 : k + (r - k) = r := by omega
    have e2 : k - r = 0 := by omega
    rw [e1, e2, List.drop_zero, List.drop_append_of_le_length hr]
  · rw [if_neg h]
    have e : k + 0 = r + (k - r) := by omega
    rw [e, ← List.drop_drop, List.drop_append_of_le_length hr]

theorem pending_appendAndTrim (s : SharedAudioBuffer) (left right : Nat → Sample) (n : Nat)
    (h : s.readPos_ ≤ s.leftBuffer_.length ∧ s.leftBuffer_.length = s.rightBuffer_.length) :
    pending (appendAndTrim s left right n)
      = (lastSamples maxCapacity ((pending s).1 ++ readArray left n),
         lastSamples maxCapacity ((pending s).2 ++ readArray right n)) := by
  obtain ⟨hr, hlen⟩ := h
  have hr2 : s.readPos_ ≤ s.rightBuffer_.length := by omega
  unfold appendAndTrim pending lastSamples
  simp only [List.length_append, length_readArray, List.length_drop]
  split
  · rename_i hov
    simp only
    rw [drop_append_readArray _ _ _ _ hr, drop_append_readArray _ _ _ _ hr2]
    have e1 : s.leftBuffer_.length + n - maxCapacity - s.readPos_
        = s.leftBuffer_.length - s.readPos_ + n - maxCapacity := by omega
    have e2 : s.leftBuffer_.length + n - maxCapacity - s.readPos_
        = s.rightBuffer_.length - s.readPos_ + n - maxCapacity := by omega
    rw [← e1, ← e2]
  · rename_i hov
    simp only
    have e1 : s.leftBuffer_.length - s.readPos_ + n - maxCapacity = 0 := by omega
    have e2 : s.rightBuffer_.length - s.readPos_ + n - maxCapacity = 0 := by omega
    rw [e1, e2, List.drop_zero, List.drop_zero, List.drop_append_of_le_length hr,
      List.drop_append_of_le_length hr2]

theorem appendAndTrim_wf (s : SharedAudioBuffer) (left right : Nat → Sample) (n : Nat)
    (h : s.readPos_ ≤ s.leftBuffer_.length ∧ s.leftBuffer_.length = s.rightBuffer_.length) :
    (appendAndTrim s left right n).readPos_ ≤ (appendAndTrim s left right n).leftBuffer_.length
      ∧ (appendAndTrim s left right n).leftBuffer_.length
          = (appendAndTrim s left right n).rightBuffer_.length
      ∧ (appendAndTrim s left right n).leftBuffer_.length ≤ maxCapacity := by
  obtain ⟨hr, hlen⟩ := h
  unfold appendAndTrim
  simp only [List.length_append, length_readArray]
  split
  · simp only [List.length_drop, List.length_append, length_readArray]
    split <;> omega
  · simp only [List.length_append, length_readArray]
    omega

theorem pending_pushAudio (s : SharedAudioBuffer) (left right : Nat → Sample) (n : Nat)
    (rate : Int)
    (h : s.readPos_ ≤ s.leftBuffer_.length ∧ s.leftBuffer_.length = s.rightBuffer_.length) :
    pending (pushAudio s left right n rate)
      = (lastSamples maxCapacity ((pending s).1 ++ readArray left n),
         lastSamples maxCapacity ((pending s).2 ++ readArray right n)) := by
  unfold pushAudio
  rw [pending_appendAndTrim _ _ _ _ (cleanup_wf s h), pending_cleanup]

theorem pushAudio_wf (s : SharedAudioBuffer) (left right : Nat → Sample) (n : Nat) (rate : Int)
    (h : s.readPos_ ≤ s.leftBuffer_.length ∧ s.leftBuffer_.length = s.rightBuffer_.length) :
    (pushAudio s left right n rate).readPos_ ≤ (pushAudio s left right n rate).leftBuffer_.length
      ∧ (pushAudio s left right n rate).leftBuffer_.length
          = (pushAudio s left right n rate).rightBuffer_.length
      ∧ (pushAudio s left right n rate).leftBuffer_.length ≤ maxCapacity := by
  unfold pushAudio
  exact appendAndTrim_wf _ _ _ _ (cleanup_wf s h)

theorem pullChannel_snd (s : SharedAudioBuffer) (ch n : Nat) :
    (pullChannel s ch n).2
      = pullOut (if ch = 0 then (pending s).1 else (pending s).2) n := by
  unfold pullChannel pullOut pending
  by_cases hc : ch = 0
  · simp only [hc, if_true, List.length_drop]
    have e : (if s.leftBuffer_.length > s.readPos_ then s.leftBuffer_.length - s.readPos_ else 0)
        = s.leftBuffer_.length - s.readPos_ := by split <;> omega
    rw [e]
  · simp only [hc, if_false, List.length_drop]
    have e : (if s.rightBuffer_.length > s.readPos_ then s.rightBuffer_.length - s.readPos_
        else 0) = s.rightBuffer_.length - s.readPos_ := by split <;> omega
    rw [e]

theorem pending_pullChannel_zero (s : SharedAudioBuffer) (n : Nat) :
    pending (pullChannel s 0 n).1
      = ((pending s).1.drop (min n (pending s).1.length),
         (pending s).2.drop (min n (pending s).1.length)) := by
  unfold pullChannel pending
  simp only [if_true, List.length_drop, List.drop_drop]
  have e : (if s.leftBuffer_.length > s.readPos_ then s.leftBuffer_.length - s.readPos_ else 0)
      = s.leftBuffer_.length - s.readPos_ := by split <;> omega
  rw [e]

theorem pullChannel_one_fst (s : SharedAudioBuffer) (n : Nat) : (pullChannel s 1 n).1 = s := by
  simp [pullChannel]

theorem pullChannel_zero_wf (s : SharedAudioBuffer) (n : Nat) :
    (pullChannel s 0 n).1.leftBuffer_ = s.leftBuffer_
      ∧ (pullChannel s 0 n).1.rightBuffer_ = s.rightBuffer_
      ∧ (s.readPos_ ≤ s.leftBuffer_.length →
          (pullChannel s 0 n).1.readPos_ ≤ s.leftBuffer_.length) := by
  unfold pullChannel
  simp only [if_true]
  refine ⟨trivial, trivial, ?_⟩
  intro h
  split <;> omega

theorem pullAudio_aligned (s : SharedAudioBuffer) (nc : Int) (n : Nat) (h : Aligned s) :
    Aligned (pullAudio s nc n).1
      ∧ (pullAudio s nc n).1.leftBuffer_ = s.leftBuffer_
      ∧ (pullAudio s nc n).1.rightBuffer_ = s.rightBuffer_ := by
  obtain ⟨hr, hlen⟩ := h
  obtain ⟨hl, hrb, hpos⟩ := pullChannel_zero_wf s n
  unfold pullAudio Aligned
  split
  · split
    · simp only [pullChannel_one_fst]
      rw [hl, hrb]
      exact ⟨⟨hpos hr, hlen⟩, rfl, rfl⟩
    · simp only
      rw [hl, hrb]
      exact ⟨⟨hpos hr, hlen⟩, rfl, rfl⟩
  · exact ⟨⟨hr, hlen⟩, rfl, rfl⟩

theorem pullAudio_of_pending_eq (s t : SharedAudioBuffer) (nc : Int) (n : Nat)
    (h : pending s = pending t) :
    (pullAudio s nc n).2 = (pullAudio t nc n).2
      ∧ pending (pullAudio s nc n).1 = pending (pullAudio t nc n).1 := by
  unfold pullAudio
  split
  · split
    · simp only [pullChannel_one_fst, pullChannel_snd, pending_pullChannel_zero, h]
      exact ⟨trivial, trivial⟩
    · simp only [pullChannel_snd, pending_pullChannel_zero, h]
      exact ⟨trivial, trivial⟩
  · exact ⟨rfl, h⟩

theorem step_of_pending_eq (s t : SharedAudioBuffer) (hs : Aligned s) (ht : Aligned t)
    (h : pending s = pending t) (op : Op) :
    (step s op).2 = (step t op).2 ∧ pending (step s op).1 = pending (step t op).1
      ∧ Aligned (step s op).1 ∧ Aligned (step t op).1 := by
  cases op with
  | push left right n rate =>
    refine ⟨rfl, ?_, ?_, ?_⟩
    · simp only [step]
      rw [pending_pushAudio _ _ _ _ _ hs, pending_pushAudio _ _ _ _ _ ht, h]
    · exact ⟨(pushAudio_wf s left right n rate hs).1, (pushAudio_wf s left right n rate hs).2.1⟩
    · exact ⟨(pushAudio_wf t left right n rate ht).1, (pushAudio_wf t left right n rate ht).2.1⟩
  | pull nc n =>
    simp only [step]
    refine ⟨?_, (pullAudio_of_pending_eq s t nc n h).2, (pullAudio_aligned s nc n hs).1,
      (pullAudio_aligned t nc n ht).1⟩
    rw [(pullAudio_of_pending_eq s t nc n h).1]
  | available =>
    simp only [step]
    refine ⟨?_, h, hs, ht⟩
    rw [available_eq_length_pending, available_eq_length_pending, h]
  | clear =>
    simp only [step]
    exact ⟨trivial, rfl, ⟨Nat.le_refl _, rfl⟩, ⟨Nat.le_refl _, rfl⟩⟩

theorem observe_of_pending_eq (ops : List Op) :
    ∀ s t : SharedAudioBuffer, Aligned s → Aligned t → pending s = pending t →
      observe s ops = observe t ops := by
  induction ops with
  | nil => intro s t _ _ _; rfl
  | cons op ops ih =>
    intro s t hs ht h
    obtain ⟨ho, hp, hs2, ht2⟩ := step_of_pending_eq s t hs ht h op
    simp only [observe]
    rw [ho, ih _ _ hs2 ht2 hp]

theorem maxCapacity_eq : maxCapacity = 288000 := rfl

theorem length_lastSamples (c : Nat) (xs : List Sample) :
    (lastSamples c xs).length = min xs.length c := by
  unfold lastSamples
  rw [List.length_drop]
  omega

theorem lastSamples_append_lastSamples (c : Nat) (xs ys : List Sample) :
    lastSamples c (lastSamples c xs ++ ys) = lastSamples c (xs ++ ys) := by
  unfold lastSamples
  have hk : xs.length - c ≤ xs.length := Nat.sub_le _ _
  rw [← List.drop_append_of_le_length hk, List.drop_drop]
  congr 1
  simp only [List.length_drop, List.length_append]
  omega

theorem pushAudio_readPos_zero (s : SharedAudioBuffer) (left right : Nat → Sample) (n : Nat)
    (rate : Int) (h : s.readPos_ = 0) : (pushAudio s left right n rate).readPos_ = 0 := by
  have hc : cleanup s = s := by
    unfold cleanup
    rw [if_neg]
    omega
  unfold pushAudio
  rw [hc]
  unfold appendAndTrim
  simp only [h]
  split
  · simp
  · rfl

theorem pushAll_spec (calls : List PushCall) :
    ∀ s : SharedAudioBuffer, Aligned s → s.leftBuffer_.length ≤ maxCapacity →
      Aligned (pushAll s calls)
        ∧ pending (pushAll s calls)
            = (lastSamples maxCapacity ((pending s).1 ++ pushedLeft calls),
               lastSamples maxCapacity ((pending s).2 ++ pushedRight calls))
        ∧ (s.readPos_ = 0 → (pushAll s calls).readPos_ = 0) := by
  induction calls with
  | nil =>
    intro s hs hcap
    refine ⟨hs, ?_, fun h => h⟩
    obtain ⟨hr, hlen⟩ := hs
    simp only [pushAll, pushedLeft, pushedRight, List.append_nil]
    unfold lastSamples pending
    simp only [List.length_drop]
    have e1 : s.leftBuffer_.length - s.readPos_ - maxCapacity = 0 := by omega
    have e2 : s.rightBuffer_.length - s.readPos_ - maxCapacity = 0 := by omega
    rw [e1, e2, List.drop_zero, List.drop_zero]
  | cons c cs ih =>
    intro s hs _
    have hw := pushAudio_wf s c.left c.right c.numSamples c.sampleRate hs
    obtain ⟨ha, hp, hz⟩ := ih (pushAudio s c.left c.right c.numSamples c.sampleRate)
      ⟨hw.1, hw.2.1⟩ hw.2.2
    refine ⟨ha, ?_, fun h => hz (pushAudio_readPos_zero s _ _ _ _ h)⟩
    simp only [pushAll, pushedLeft, pushedRight]
    rw [hp, pending_pushAudio _ _ _ _ _ hs, lastSamples_append_lastSamples,
      lastSamples_append_lastSamples, List.append_assoc, List.append_assoc]

theorem length_pushedLeft (calls : List PushCall) :
    (pushedLeft calls).length = pushedCount calls := by
  induction calls with
  | nil => rfl
  | cons c cs ih => simp [pushedLeft, pushedCount, length_readArray, ih]

theorem length_pushedRight (calls : List PushCall) :
    (pushedRight calls).length = pushedCount calls := by
  induction calls with
  | nil => rfl
  | cons c cs ih => simp [pushedRight, pushedCount, length_readArray, ih]

theorem aligned_fresh : Aligned fresh := ⟨Nat.le_refl _, rfl⟩

theorem pending_of_readPos_zero (s : SharedAudioBuffer) (h : s.readPos_ = 0) :
    pending s = (s.leftBuffer_, s.rightBuffer_) := by
  simp [pending, h]

/-- C1, the code at a failing input: after `pushAudio` of left `[1, 2, 3, 4]` and right
`[5, 6, 7, 8]` into the empty buffer, two two-channel pulls of 2 samples give channel 0 the
pushed left samples, but channel 1 `[7, 8, 0, 0]`; one two-channel pull of 4 samples gives
channel 1 only silence. The cursor is advanced inside the channel loop, before channel 1 is
copied. -/
theorem roundtrip_right_channel_reads_past_block :
    pushedCount [⟨ptr [1, 2, 3, 4], ptr [5, 6, 7, 8], 4, 48000⟩] = 4
    ∧ pushedLeft [⟨ptr [1, 2, 3, 4], ptr [5, 6, 7, 8], 4, 48000⟩] = [1, 2, 3, 4]
    ∧ pushedRight [⟨ptr [1, 2, 3, 4], ptr [5, 6, 7, 8], 4, 48000⟩] = [5, 6, 7, 8]
    ∧ channelStream 0 (pullAll (pushAll fresh [⟨ptr [1, 2, 3, 4], ptr [5, 6, 7, 8], 4, 48000⟩])
        [(2, 2), (2, 2)]).2 = [1, 2, 3, 4]
    ∧ channelStream 1 (pullAll (pushAll fresh [⟨ptr [1, 2, 3, 4], ptr [5, 6, 7, 8], 4, 48000⟩])
        [(2, 2), (2, 2)]).2 = [7, 8, 0, 0]
    ∧ channelStream 1 (pullAll (pushAll fresh [⟨ptr [1, 2, 3, 4], ptr [5, 6, 7, 8], 4, 48000⟩])
        [(2, 4)]).2 = [0, 0, 0, 0] := by
  decide

theorem pending_pullAudio (s : SharedAudioBuffer) (nc : Int) (n : Nat) (h : 1 ≤ nc) :
    pending (pullAudio s nc n).1
      = ((pending s).1.drop (min n (pending s).1.length),
         (pending s).2.drop (min n (pending s).1.length)) := by
  have h0 : (0 : Int) < nc := by omega
  unfold pullAudio
  rw [if_pos h0]
  split
  · simp only [pullChannel_one_fst, pending_pullChannel_zero]
  · simp only [pending_pullChannel_zero]

theorem pullAudio_channel_zero (s : SharedAudioBuffer) (nc : Int) (n : Nat) (h : 1 ≤ nc) :
    (pullAudio s nc n).2.getD 0 [] = pullOut (pending s).1 n := by
  have h0 : (0 : Int) < nc := by omega
  unfold pullAudio
  rw [if_pos h0]
  split <;> simp [pullChannel_snd]

theorem pullAll_channel_zero (pulls : List (Int × Nat)) :
    ∀ s : SharedAudioBuffer, (∀ c ∈ pulls, 1 ≤ c.1) →
      (pulls.map Prod.snd).sum ≤ (pending s).1.length →
      channelStream 0 (pullAll s pulls).2 = (pending s).1.take (pulls.map Prod.snd).sum := by
  induction pulls with
  | nil => intro s _ _; simp [pullAll, channelStream]
  | cons c cs ih =>
    intro s hc hsum
    simp only [List.map_cons, List.sum_cons] at hsum ⊢
    have h1 : 1 ≤ c.1 := hc c (List.mem_cons_self c cs)
    have hn : c.2 ≤ (pending s).1.length := by omega
    have hrest := ih (pullAudio s c.1 c.2).1 (fun x hx => hc x (List.mem_cons_of_mem c hx))
      (by rw [pending_pullAudio _ _ _ h1]; simp only [List.length_drop]; omega)
    rw [pending_pullAudio _ _ _ h1] at hrest
    simp only [channelStream] at hrest
    simp only [pullAll, channelStream, List.map_cons, List.flatten_cons]
    rw [hrest, pullAudio_channel_zero _ _ _ h1, List.take_add]
    unfold pullOut
    rw [Nat.min_eq_left hn, Nat.sub_self]
    simp

/-- The left half of the round trip holds on the code: after pushes of at most 288000
samples in total into the empty buffer, pulls on at least one channel whose sizes sum to
that total deliver on channel 0 exactly the pushed left samples, in push order. -/
theorem roundtrip_left_channel (calls : List PushCall) (pulls : List (Int × Nat))
    (hT : pushedCount calls ≤ 288000) (hch : ∀ c ∈ pulls, 1 ≤ c.1)
    (hsum : (pulls.map Prod.snd).sum = pushedCount calls) :
    channelStream 0 (pullAll (pushAll fresh calls) pulls).2 = pushedLeft calls := by
  obtain ⟨_, hp, _⟩ := pushAll_spec calls fresh aligned_fresh (by decide)
  have hf : pending fresh = ([], []) := rfl
  rw [hf, List.nil_append, List.nil_append, maxCapacity_eq] at hp
  have hl : (pending (pushAll fresh calls)).1 = pushedLeft calls := by
    rw [hp]
    simp only [lastSamples]
    have e : (pushedLeft calls).length - 288000 = 0 := by
      rw [length_pushedLeft]; omega
    rw [e, List.drop_zero]
  rw [pullAll_channel_zero pulls _ hch (by rw [hl, length_pushedLeft]; omega), hl, hsum,
    ← length_pushedLeft calls, List.take_length]

/-- C2, the code at a failing input: with left `[1, 2]` and right `[5, 6]` unconsumed
(`available()` is 2), a two-channel pull of 3 samples writes `[1, 2, 0]` to channel 0 and
`[0, 0, 0]` to channel 1, whose own two samples are never delivered; `available()` is 0
afterwards. A one-channel pull of the same size writes `[1, 2, 0]`. -/
theorem underrun_right_channel_all_silence :
    available ⟨[1, 2], [5, 6], 0, false⟩ = 2
    ∧ (pullAudio ⟨[1, 2], [5, 6], 0, false⟩ 2 3).2 = [[1, 2, 0], [0, 0, 0]]
    ∧ available (pullAudio ⟨[1, 2], [5, 6], 0, false⟩ 2 3).1 = 0
    ∧ (pullAudio ⟨[1, 2], [5, 6], 0, false⟩ 1 3).2 = [[1, 2, 0]] := by
  decide

/-- C3: starting from the empty buffer, after any sequence of `pushAudio` calls (and no pull)
whose total sample count exceeds 288000, `available()` is 288000, the cursor is still 0, and
the left and right buffers hold exactly the last 288000 samples pushed on their channel, in
push order. -/
theorem overflow_keeps_most_recent (calls : List PushCall)
    (h : 288000 < pushedCount calls) :
    (pushAll fresh calls).available = 288000
    ∧ (pushAll fresh calls).readPos_ = 0
    ∧ (pushAll fresh calls).leftBuffer_ = lastSamples 288000 (pushedLeft calls)
    ∧ (pushAll fresh calls).rightBuffer_ = lastSamples 288000 (pushedRight calls)
    ∧ (lastSamples 288000 (pushedLeft calls)).length = 288000
    ∧ (lastSamples 288000 (pushedRight calls)).length = 288000 := by
  obtain ⟨_, hp, hz⟩ := pushAll_spec calls fresh aligned_fresh (by decide)
  have hz0 : (pushAll fresh calls).readPos_ = 0 := hz rfl
  rw [pending_of_readPos_zero _ hz0, maxCapacity_eq] at hp
  have hf : pending fresh = ([], []) := rfl
  rw [hf, List.nil_append, List.nil_append] at hp
  have hl : (pushAll fresh calls).leftBuffer_ = lastSamples 288000 (pushedLeft calls) :=
    (Prod.mk.inj hp).1
  have hr : (pushAll fresh calls).rightBuffer_ = lastSamples 288000 (pushedRight calls) :=
    (Prod.mk.inj hp).2
  have hll : (lastSamples 288000 (pushedLeft calls)).length = 288000 := by
    rw [length_lastSamples, length_pushedLeft]; omega
  have hlr : (lastSamples 288000 (pushedRight calls)).length = 288000 := by
    rw [length_lastSamples, length_pushedRight]; omega
  refine ⟨?_, hz0, hl, hr, hll, hlr⟩
  unfold available
  rw [hz0, hl, hll]
  rfl

/-- C3 at a concrete input: one push of 288001 samples. -/
theorem overflow_keeps_most_recent_witness :
    288000 < pushedCount [⟨fun i => i, fun i => i + 1, 288001, 48000⟩]
    ∧ (pushAll fresh [⟨fun i => i, fun i => i + 1, 288001, 48000⟩]).available = 288000
    ∧ (pushAll fresh [⟨fun i => i, fun i => i + 1, 288001, 48000⟩]).leftBuffer_
        = lastSamples 288000 (pushedLeft [⟨fun i => i, fun i => i + 1, 288001, 48000⟩]) :=
  ⟨by decide,
   (overflow_keeps_most_recent [⟨fun i => i, fun i => i + 1, 288001, 48000⟩] (by decide)).1,
   (overflow_keeps_most_recent [⟨fun i => i, fun i => i + 1, 288001, 48000⟩] (by decide)).2.2.1⟩

theorem aligned_of_invariant (s : SharedAudioBuffer) (h : Invariant s) : Aligned s :=
  ⟨h.2.1, h.2.2.1⟩

/-- C4: from a state that satisfies the invariant and has `readPos_ > 0`, every sequence of
`pushAudio` / `pullAudio` / `available` / `clear` calls yields the same observations (the
values of `available()` and the samples `pullAudio` writes) whether `needsCleanup_` is set or
clear at the start; and a push that performs the reclaim leaves
`available() = min (available before + numSamples) 288000`. -/
theorem compaction_transparent (s : SharedAudioBuffer) (hinv : Invariant s)
    (hpos : 0 < s.readPos_) (ops : List Op) :
    observe { s with needsCleanup_ := true } ops = observe { s with needsCleanup_ := false } ops
    ∧ ∀ (left right : Nat → Sample) (n : Nat) (rate : Int),
        cleanup { s with needsCleanup_ := true }
            = { leftBuffer_ := s.leftBuffer_.drop s.readPos_,
                rightBuffer_ := s.rightBuffer_.drop s.readPos_,
                readPos_ := 0, needsCleanup_ := false }
          ∧ (pushAudio { s with needsCleanup_ := true } left right n rate).available
              = min (s.available + n) 288000 := by
  have ha : Aligned s := aligned_of_invariant s hinv
  refine ⟨observe_of_pending_eq ops _ _ ha ha rfl, ?_⟩
  intro left right n rate
  refine ⟨?_, ?_⟩
  · unfold cleanup
    rw [if_pos ⟨rfl, hpos⟩]
  · have hp := pending_pushAudio { s with needsCleanup_ := true } left right n rate ha
    rw [available_eq_length_pending, hp, available_eq_length_pending, length_lastSamples,
      List.length_append, length_readArray, maxCapacity_eq]
    rfl

/-- C4 at a concrete state: three samples per channel, one of them consumed. -/
theorem compaction_transparent_witness :
    Invariant ⟨[1, 2, 3], [4, 5, 6], 1, false⟩
    ∧ observe ⟨[1, 2, 3], [4, 5, 6], 1, true⟩
          [Op.push (ptr [7]) (ptr [8]) 1 48000, Op.available, Op.pull 2 2, Op.clear, Op.available]
        = observe ⟨[1, 2, 3], [4, 5, 6], 1, false⟩
          [Op.push (ptr [7]) (ptr [8]) 1 48000, Op.available, Op.pull 2 2, Op.clear, Op.available]
    ∧ (pushAudio ⟨[1, 2, 3], [4, 5, 6], 1, true⟩ (ptr [7]) (ptr [8]) 1 48000).available
        = min (available ⟨[1, 2, 3], [4, 5, 6], 1, false⟩ + 1) 288000 :=
  ⟨by decide,
   (compaction_transparent ⟨[1, 2, 3], [4, 5, 6], 1, false⟩ (by decide) (by decide)
      [Op.push (ptr [7]) (ptr [8]) 1 48000, Op.available, Op.pull 2 2, Op.clear, Op.available]).1,
   ((compaction_transparent ⟨[1, 2, 3], [4, 5, 6], 1, false⟩ (by decide) (by decide) []).2
      (ptr [7]) (ptr [8]) 1 48000).2⟩

theorem round_drains (n : Nat) (s : SharedAudioBuffer) (r : Round) (hs : Aligned s)
    (hp : pending s = ([], [])) (hc : 1 ≤ r.numChannels) :
    Aligned ((s.pushAudio r.left r.right n r.sampleRate).pullAudio r.numChannels n).1
      ∧ pending ((s.pushAudio r.left r.right n r.sampleRate).pullAudio r.numChannels n).1
          = ([], []) := by
  have hw := pushAudio_wf s r.left r.right n r.sampleRate hs
  refine ⟨(pullAudio_aligned _ _ _ ⟨hw.1, hw.2.1⟩).1, ?_⟩
  rw [pending_pullAudio _ _ _ hc, pending_pushAudio _ _ _ _ _ hs, hp]
  simp only [List.nil_append]
  have e1 : (lastSamples maxCapacity (readArray r.left n)).length ≤ n := by
    rw [length_lastSamples, length_readArray]; omega
  have e2 : (lastSamples maxCapacity (readArray r.right n)).length
      = (lastSamples maxCapacity (readArray r.left n)).length := by
    rw [length_lastSamples, length_lastSamples, length_readArray, length_readArray]
  rw [Nat.min_eq_right e1, List.drop_length]
  nth_rewrite 1 [← e2]
  rw [List.drop_length]

theorem runRounds_drained (n : Nat) (rounds : List Round) :
    ∀ s : SharedAudioBuffer, Aligned s → pending s = ([], []) →
      (∀ r ∈ rounds, 1 ≤ r.numChannels) →
      Aligned (runRounds n s rounds) ∧ pending (runRounds n s rounds) = ([], []) := by
  induction rounds with
  | nil => intro s hs hp _; exact ⟨hs, hp⟩
  | cons r rs ih =>
    intro s hs hp hc
    obtain ⟨ha, hq⟩ := round_drains n s r hs hp (hc r (List.mem_cons_self r rs))
    exact ih _ ha hq (fun x hx => hc x (List.mem_cons_of_mem r hx))

/-- C5: starting from the empty buffer, after every round of `M` rounds
`[pushAudio of n samples; pullAudio of n samples on at least one channel]` `available()` is 0,
and from the final state every further sequence of calls is observed exactly as from a freshly
constructed buffer, for every `n` and `M`. -/
theorem steady_state (n : Nat) (rounds : List Round)
    (h : ∀ r ∈ rounds, 1 ≤ r.numChannels) :
    (∀ k : Nat, (runRounds n fresh (rounds.take k)).available = 0)
    ∧ ∀ ops : List Op, observe (runRounds n fresh rounds) ops = observe fresh ops := by
  refine ⟨fun k => ?_, fun ops => ?_⟩
  · obtain ⟨_, hp⟩ := runRounds_drained n (rounds.take k) fresh aligned_fresh rfl
      (fun r hr => h r (List.mem_of_mem_take hr))
    rw [available_eq_length_pending, hp]
    rfl
  · obtain ⟨ha, hp⟩ := runRounds_drained n rounds fresh aligned_fresh rfl h
    exact observe_of_pending_eq ops _ _ ha aligned_fresh hp

/-- C5 at a concrete input: two rounds of 2 samples, pulled on two channels and on one. -/
theorem steady_state_witness :
    (∀ r ∈ [(⟨ptr [1, 2], ptr [3, 4], 48000, 2⟩ : Round), ⟨ptr [5, 6], ptr [7, 8], 44100, 1⟩],
        1 ≤ r.numChannels)
    ∧ (runRounds 2 fresh
        ([(⟨ptr [1, 2], ptr [3, 4], 48000, 2⟩ : Round), ⟨ptr [5, 6], ptr [7, 8], 44100, 1⟩].take 1)
        ).available = 0
    ∧ observe (runRounds 2 fresh
          [(⟨ptr [1, 2], ptr [3, 4], 48000, 2⟩ : Round), ⟨ptr [5, 6], ptr [7, 8], 44100, 1⟩])
        [Op.push (ptr [9]) (ptr [10]) 1 48000, Op.pull 2 1, Op.available]
      = observe fresh [Op.push (ptr [9]) (ptr [10]) 1 48000, Op.pull 2 1, Op.available] :=
  ⟨by decide,
   (steady_state 2 [⟨ptr [1, 2], ptr [3, 4], 48000, 2⟩, ⟨ptr [5, 6], ptr [7, 8], 44100, 1⟩]
      (by decide)).1 1,
   (steady_state 2 [⟨ptr [1, 2], ptr [3, 4], 48000, 2⟩, ⟨ptr [5, 6], ptr [7, 8], 44100, 1⟩]
      (by decide)).2 [Op.push (ptr [9]) (ptr [10]) 1 48000, Op.pull 2 1, Op.available]⟩

/-- C10: the invariant `0 <= readPos_ <= len(leftBuffer_) = len(rightBuffer_) <= 288000`
holds for the freshly constructed buffer and is preserved by every call: `pushAudio` with any
count and any state of `needsCleanup_`, `pullAudio` with any `numSamples` and any
`numChannels`, `available` and `clear`. -/
theorem invariant_preserved :
    Invariant fresh
    ∧ ∀ (s : SharedAudioBuffer) (op : Op), Invariant s → Invariant (step s op).1 := by
  refine ⟨by decide, ?_⟩
  intro s op h
  have ha : Aligned s := aligned_of_invariant s h
  cases op with
  | push left right n rate =>
    obtain ⟨h1, h2, h3⟩ := pushAudio_wf s left right n rate ha
    simp only [step]
    exact ⟨Nat.zero_le _, h1, h2, h2 ▸ h3⟩
  | pull nc n =>
    obtain ⟨⟨h1, h2⟩, hl, hr⟩ := pullAudio_aligned s nc n ha
    simp only [step]
    refine ⟨Nat.zero_le _, h1, h2, ?_⟩
    rw [hr]
    exact h.2.2.2
  | available => exact h
  | clear =>
    simp only [step, clear]
    exact ⟨Nat.le_refl _, Nat.le_refl _, rfl, Nat.zero_le _⟩

/-- C10 at concrete inputs: a push that reclaims, and a two-channel pull. -/
theorem invariant_preserved_witness :
    Invariant ⟨[1, 2, 3], [4, 5, 6], 2, true⟩
    ∧ Invariant (step ⟨[1, 2, 3], [4, 5, 6], 2, true⟩ (Op.push (ptr [7]) (ptr [8]) 1 48000)).1
    ∧ Invariant (step ⟨[1, 2, 3], [4, 5, 6], 2, true⟩ (Op.pull 2 4)).1 :=
  ⟨by decide,
   invariant_preserved.2 ⟨[1, 2, 3], [4, 5, 6], 2, true⟩ (Op.push (ptr [7]) (ptr [8]) 1 48000)
     (by decide),
   invariant_preserved.2 ⟨[1, 2, 3], [4, 5, 6], 2, true⟩ (Op.pull 2 4) (by decide)⟩

theorem appendAndTrim_layout (t : SharedAudioBuffer) (left right : Nat → Sample) (n : Nat) :
    (appendAndTrim t left right n).leftBuffer_
        = (t.leftBuffer_ ++ readArray left n).drop (t.leftBuffer_.length + n - maxCapacity)
      ∧ (appendAndTrim t left right n).rightBuffer_
        = (t.rightBuffer_ ++ readArray right n).drop (t.leftBuffer_.length + n - maxCapacity)
      ∧ (appendAndTrim t left right n).readPos_
        = t.readPos_ - (t.leftBuffer_.length + n - maxCapacity) := by
  unfold appendAndTrim
  simp only [List.length_append, length_readArray]
  split
  · simp only [true_and]
    split <;> omega
  · have e : t.leftBuffer_.length + n - maxCapacity = 0 := by omega
    rw [e]
    exact ⟨rfl, rfl, rfl⟩

theorem cleanup_layout (s : SharedAudioBuffer) :
    ∃ c : Nat, c ≤ s.readPos_
      ∧ (cleanup s).leftBuffer_ = s.leftBuffer_.drop c
      ∧ (cleanup s).rightBuffer_ = s.rightBuffer_.drop c
      ∧ (cleanup s).readPos_ = s.readPos_ - c
      ∧ (cleanup s).leftBuffer_.length = s.leftBuffer_.length - c := by
  unfold cleanup
  split
  · exact ⟨s.readPos_, Nat.le_refl _, rfl, rfl, (Nat.sub_self _).symm, List.length_drop _ _⟩
  · exact ⟨0, Nat.zero_le _, rfl, rfl, rfl, rfl⟩

theorem pushAudio_layout (s : SharedAudioBuffer) (left right : Nat → Sample) (n : Nat)
    (rate : Int) (h : Aligned s) :
    (pushAudio s left right n rate).leftBuffer_
        = (s.leftBuffer_ ++ readArray left n).drop
            (s.leftBuffer_.length + n - (pushAudio s left right n rate).leftBuffer_.length)
      ∧ (pushAudio s left right n rate).rightBuffer_
        = (s.rightBuffer_ ++ readArray right n).drop
            (s.leftBuffer_.length + n - (pushAudio s left right n rate).leftBuffer_.length)
      ∧ (pushAudio s left right n rate).readPos_
        = s.readPos_
            - (s.leftBuffer_.length + n - (pushAudio s left right n rate).leftBuffer_.length) := by
  obtain ⟨hr, hlen⟩ := h
  obtain ⟨c, hc, hcl, hcr, hcp, hcn⟩ := cleanup_layout s
  obtain ⟨hl, hrb, hp⟩ := appendAndTrim_layout (cleanup s) left right n
  have hc1 : c ≤ s.leftBuffer_.length := by omega
  have hc2 : c ≤ s.rightBuffer_.length := by omega
  have hlen' : (pushAudio s left right n rate).leftBuffer_.length
      = s.leftBuffer_.length + n - (c + ((cleanup s).leftBuffer_.length + n - maxCapacity)) := by
    unfold pushAudio
    rw [hl, List.length_drop, List.length_append, length_readArray, hcn]
    omega
  have hrem : s.leftBuffer_.length + n - (pushAudio s left right n rate).leftBuffer_.length
      = c + ((cleanup s).leftBuffer_.length + n - maxCapacity) := by
    rw [hlen', hcn]
    omega
  rw [hrem]
  unfold pushAudio
  rw [hl, hrb, hp, hcl, hcr, hcp, ← List.drop_append_of_le_length hc1,
    ← List.drop_append_of_le_length hc2, List.drop_drop, List.drop_drop]
  refine ⟨?_, ?_, by omega⟩
  · congr 1
  · congr 1

/-- C11: from a state that satisfies the invariant, with `a = available()` unconsumed samples
`uL`, `uR`, a `pushAudio` of `n` samples `nL`, `nR` leaves as unconsumed contents exactly the
last `min (a + n) 288000` entries of `uL ++ nL` and of `uR ++ nR` (all of them when
`a + n <= 288000`), so `available()` becomes `min (a + n) 288000`. The call only removes
entries from the front of the sequences, `removed` many; an unconsumed sample goes only once
every consumed one has gone (`removed - readPos_` unconsumed entries are dropped); `readPos_`
is lowered by `removed`, floored at 0; and within the call the overflow step lowers the
cursor it finds after the cleanup step by the overflow count, floored at 0. -/
theorem push_keeps_unconsumed (s : SharedAudioBuffer) (hinv : Invariant s)
    (left right : Nat → Sample) (n : Nat) (rate : Int) :
    pending (pushAudio s left right n rate)
        = (lastSamples 288000 ((pending s).1 ++ readArray left n),
           lastSamples 288000 ((pending s).2 ++ readArray right n))
    ∧ (pending (pushAudio s left right n rate)).1.length = min (available s + n) 288000
    ∧ (pending (pushAudio s left right n rate)).2.length = min (available s + n) 288000
    ∧ available (pushAudio s left right n rate) = min (available s + n) 288000
    ∧ (available s + n ≤ 288000 →
        pending (pushAudio s left right n rate)
          = ((pending s).1 ++ readArray left n, (pending s).2 ++ readArray right n))
    ∧ (pushAudio s left right n rate).leftBuffer_
        = (s.leftBuffer_ ++ readArray left n).drop
            (s.leftBuffer_.length + n - (pushAudio s left right n rate).leftBuffer_.length)
    ∧ (pushAudio s left right n rate).rightBuffer_
        = (s.rightBuffer_ ++ readArray right n).drop
            (s.leftBuffer_.length + n - (pushAudio s left right n rate).leftBuffer_.length)
    ∧ (pushAudio s left right n rate).readPos_
        = s.readPos_
            - (s.leftBuffer_.length + n - (pushAudio s left right n rate).leftBuffer_.length)
    ∧ (pending (pushAudio s left right n rate)).1
        = ((pending s).1 ++ readArray left n).drop
            (s.leftBuffer_.length + n - (pushAudio s left right n rate).leftBuffer_.length
              - s.readPos_)
    ∧ (pending (pushAudio s left right n rate)).2
        = ((pending s).2 ++ readArray right n).drop
            (s.leftBuffer_.length + n - (pushAudio s left right n rate).leftBuffer_.length
              - s.readPos_)
    ∧ (pushAudio s left right n rate).readPos_
        = (cleanup s).readPos_ - ((cleanup s).leftBuffer_.length + n - 288000) := by
  have ha : Aligned s := aligned_of_invariant s hinv
  have hr : s.readPos_ ≤ s.leftBuffer_.length := ha.1
  have hlen : s.leftBuffer_.length = s.rightBuffer_.length := ha.2
  have hr2 : s.readPos_ ≤ s.rightBuffer_.length := by omega
  have hp := pending_pushAudio s left right n rate ha
  rw [maxCapacity_eq] at hp
  obtain ⟨hl, hrb, hpos⟩ := pushAudio_layout s left right n rate ha
  have ha1 : (pending s).1.length = available s := (available_eq_length_pending s).symm
  have ha2 : (pending s).2.length = available s := by
    rw [available_eq_length_pending]
    simp only [pending, List.length_drop]
    omega
  have hstep : (pushAudio s left right n rate).readPos_
      = (cleanup s).readPos_ - ((cleanup s).leftBuffer_.length + n - 288000) := by
    rw [← maxCapacity_eq]
    exact (appendAndTrim_layout (cleanup s) left right n).2.2
  have hdrop : ∀ (buf new : List Sample) (k : Nat), s.readPos_ ≤ buf.length →
      ((buf ++ new).drop k).drop (s.readPos_ - k)
        = (buf.drop s.readPos_ ++ new).drop (k - s.readPos_) := by
    intro buf new k hb
    rw [← List.drop_append_of_le_length hb, List.drop_drop, List.drop_drop]
    congr 1
    omega
  refine ⟨hp, ?_, ?_, ?_, ?_, hl, hrb, hpos, ?_, ?_, hstep⟩
  · rw [hp, length_lastSamples, List.length_append, length_readArray, ha1]
  · rw [hp, length_lastSamples, List.length_append, length_readArray, ha2]
  · rw [available_eq_length_pending, hp, length_lastSamples, List.length_append,
      length_readArray, ha1]
  · intro hfit
    rw [hp]
    unfold lastSamples
    have e1 : ((pending s).1 ++ readArray left n).length - 288000 = 0 := by
      rw [List.length_append, length_readArray, ha1]; omega
    have e2 : ((pending s).2 ++ readArray right n).length - 288000 = 0 := by
      rw [List.length_append, length_readArray, ha2]; omega
    rw [e1, e2, List.drop_zero, List.drop_zero]
  · have e : (pending (pushAudio s left right n rate)).1
        = (pushAudio s left right n rate).leftBuffer_.drop (pushAudio s left right n rate).readPos_ :=
      rfl
    rw [e]
    nth_rewrite 1 [hl]
    nth_rewrite 1 [hpos]
    exact hdrop _ _ _ hr
  · have e : (pending (pushAudio s left right n rate)).2
        = (pushAudio s left right n rate).rightBuffer_.drop (pushAudio s left right n rate).readPos_ :=
      rfl
    rw [e]
    nth_rewrite 1 [hrb]
    nth_rewrite 1 [hpos]
    exact hdrop _ _ _ hr2

/-- C11 at a concrete call: a push of one sample into a state whose two consumed samples are
reclaimed by the call. -/
theorem push_keeps_unconsumed_witness :
    Invariant ⟨[1, 2, 3], [4, 5, 6], 2, true⟩
    ∧ pending (pushAudio ⟨[1, 2, 3], [4, 5, 6], 2, true⟩ (ptr [7]) (ptr [8]) 1 48000)
        = (lastSamples 288000 ((pending ⟨[1, 2, 3], [4, 5, 6], 2, true⟩).1 ++ readArray (ptr [7]) 1),
           lastSamples 288000 ((pending ⟨[1, 2, 3], [4, 5, 6], 2, true⟩).2 ++ readArray (ptr [8]) 1))
    ∧ available (pushAudio ⟨[1, 2, 3], [4, 5, 6], 2, true⟩ (ptr [7]) (ptr [8]) 1 48000)
        = min (available ⟨[1, 2, 3], [4, 5, 6], 2, true⟩ + 1) 288000 :=
  ⟨by decide,
   (push_keeps_unconsumed ⟨[1, 2, 3], [4, 5, 6], 2, true⟩ (by decide)
      (ptr [7]) (ptr [8]) 1 48000).1,
   (push_keeps_unconsumed ⟨[1, 2, 3], [4, 5, 6], 2, true⟩ (by decide)
      (ptr [7]) (ptr [8]) 1 48000).2.2.2.1⟩

theorem pullChannel_zero_eq (s : SharedAudioBuffer) (n : Nat) :
    pullChannel s 0 n
      = ({ s with
            readPos_ := s.readPos_ + min n (available s)
            needsCleanup_ :=
              if s.readPos_ + min n (available s) > 48000 then true else s.needsCleanup_ },
         (s.leftBuffer_.drop s.readPos_).take (min n (available s))
           ++ List.replicate (n - min n (available s)) 0) := rfl

theorem pullAudio_one_or_two (s : SharedAudioBuffer) (nc : Int) (n : Nat)
    (h : nc = 1 ∨ nc = 2) :
    (pullAudio s nc n).1 = (pullChannel s 0 n).1
      ∧ (pullAudio s nc n).2.getD 0 [] = (pullChannel s 0 n).2 := by
  rcases h with h | h
  · subst h
    simp [pullAudio]
  · subst h
    simp [pullAudio, pullChannel_one_fst]

/-- C12: from a state that satisfies the invariant, a `pullAudio` of `n` samples on one or
two channels, with `c = min n (available())`, writes to channel 0 the `c` left samples at
positions `readPos_ .. readPos_ + c - 1` followed by `n - c` zeros; advances `readPos_` by
exactly `c`, to the same state for one and for two channels, and not past the end of the
buffers; leaves both sample sequences unchanged; and sets `needsCleanup_` when the new
`readPos_` exceeds 48000, leaving it as it was otherwise. -/
theorem pull_channel_zero_and_cursor (s : SharedAudioBuffer) (hinv : Invariant s) (nc : Int)
    (n : Nat) (hnc : nc = 1 ∨ nc = 2) :
    (pullAudio s nc n).2.getD 0 []
        = (s.leftBuffer_.drop s.readPos_).take (min n (available s))
            ++ List.replicate (n - min n (available s)) 0
    ∧ ((pullAudio s nc n).2.getD 0 []).length = n
    ∧ (∀ i : Nat, i < min n (available s) →
        ((pullAudio s nc n).2.getD 0 [])[i]? = s.leftBuffer_[s.readPos_ + i]?
          ∧ s.readPos_ + i < s.leftBuffer_.length)
    ∧ (∀ i : Nat, min n (available s) ≤ i → i < n →
        ((pullAudio s nc n).2.getD 0 [])[i]? = some 0)
    ∧ (pullAudio s nc n).1.readPos_ = s.readPos_ + min n (available s)
    ∧ (pullAudio s nc n).1.readPos_ ≤ s.leftBuffer_.length
    ∧ (pullAudio s nc n).1.leftBuffer_ = s.leftBuffer_
    ∧ (pullAudio s nc n).1.rightBuffer_ = s.rightBuffer_
    ∧ (48000 < s.readPos_ + min n (available s) → (pullAudio s nc n).1.needsCleanup_ = true)
    ∧ (¬ 48000 < s.readPos_ + min n (available s) →
        (pullAudio s nc n).1.needsCleanup_ = s.needsCleanup_)
    ∧ (pullAudio s 1 n).1 = (pullAudio s 2 n).1 := by
  obtain ⟨hst, hout⟩ := pullAudio_one_or_two s nc n hnc
  rw [hout, hst, pullChannel_zero_eq]
  have hr : s.readPos_ ≤ s.leftBuffer_.length := hinv.2.1
  have hav : available s = s.leftBuffer_.length - s.readPos_ := by
    unfold available
    split <;> omega
  have hlenA : ((s.leftBuffer_.drop s.readPos_).take (min n (available s))).length
      = min n (available s) := by
    rw [List.length_take, List.length_drop, hav]
    omega
  refine ⟨rfl, ?_, ?_, ?_, rfl, ?_, rfl, rfl, ?_, ?_, ?_⟩
  · simp only [List.length_append, hlenA, List.length_replicate]
    omega
  · intro i hi
    refine ⟨?_, by omega⟩
    simp only
    rw [List.getElem?_append_left (by rw [hlenA]; exact hi), List.getElem?_take_of_lt hi,
      List.getElem?_drop]
  · intro i hi hn
    simp only
    rw [List.getElem?_append_right (by rw [hlenA]; exact hi), hlenA,
      List.getElem?_replicate_of_lt (by omega)]
  · simp only
    omega
  · intro h
    simp only
    rw [if_pos h]
  · intro h
    simp only
    rw [if_neg h]
  · rw [(pullAudio_one_or_two s 1 n (Or.inl rfl)).1, (pullAudio_one_or_two s 2 n (Or.inr rfl)).1]

/-- C12 at a concrete call: a two-channel pull of 4 samples with 2 available. -/
theorem pull_channel_zero_and_cursor_witness :
    Invariant ⟨[1, 2, 3], [4, 5, 6], 1, false⟩
    ∧ (pullAudio ⟨[1, 2, 3], [4, 5, 6], 1, false⟩ 2 4).2.getD 0 []
        = (([1, 2, 3] : List Sample).drop 1).take (min 4 (available ⟨[1, 2, 3], [4, 5, 6], 1, false⟩))
            ++ List.replicate (4 - min 4 (available ⟨[1, 2, 3], [4, 5, 6], 1, false⟩)) 0
    ∧ (pullAudio ⟨[1, 2, 3], [4, 5, 6], 1, false⟩ 2 4).1.readPos_
        = 1 + min 4 (available ⟨[1, 2, 3], [4, 5, 6], 1, false⟩) :=
  ⟨by decide,
   (pull_channel_zero_and_cursor ⟨[1, 2, 3], [4, 5, 6], 1, false⟩ (by decide) 2 4
      (Or.inr rfl)).1,
   (pull_channel_zero_and_cursor ⟨[1, 2, 3], [4, 5, 6], 1, false⟩ (by decide) 2 4
      (Or.inr rfl)).2.2.2.2.1⟩

/-! ## Theorems: the processor -/

open UnderlayProcessor

theorem pointsOf_cons (id : ParamID) (qo : Option ParamValueQueue) (rest : ParameterChanges) :
    pointsOf id (qo :: rest) = pointsOf id [qo] ++ pointsOf id rest := by
  cases qo with
  | none => simp [pointsOf]
  | some q =>
    by_cases h : q.parameterId = id <;> simp [pointsOf, h]

theorem latchQueue_apply (m : ParamID → Option ParamValue) (qo : Option ParamValueQueue)
    (id : ParamID) :
    latchQueue m qo id = ((pointsOf id [qo]).getLast?.map ParamPoint.value).or (m id) := by
  cases qo with
  | none => simp [latchQueue, pointsOf]
  | some q =>
    unfold latchQueue
    simp only [List.get?_eq_getElem?, ← List.getLast?_eq_getElem?]
    by_cases hp : q.points = []
    · simp [hp, pointsOf]
    · have hlen : q.points.length > 0 := List.length_pos.mpr hp
      obtain ⟨pt, hpt⟩ := Option.ne_none_iff_exists'.mp
        (fun h => hp (List.getLast?_eq_none_iff.mp h))
      rw [if_pos hlen, hpt]
      by_cases hid : q.parameterId = id
      · simp [pointsOf, hid, hpt]
      · have hid2 : ¬ id = q.parameterId := fun h => hid h.symm
        simp [pointsOf, hid, hid2]

theorem foldl_latchQueue (changes : ParameterChanges) :
    ∀ (m : ParamID → Option ParamValue) (id : ParamID),
      (changes.foldl latchQueue m) id
        = ((pointsOf id changes).getLast?.map ParamPoint.value).or (m id) := by
  induction changes with
  | nil => intro m id; simp [pointsOf]
  | cons qo rest ih =>
    intro m id
    rw [List.foldl_cons, ih, latchQueue_apply, pointsOf_cons id qo rest, List.getLast?_append]
    cases (pointsOf id rest).getLast? <;> cases (pointsOf id [qo]).getLast? <;> simp

theorem sorted_le_getLast (points : List ParamPoint) (p : ParamPoint)
    (hs : OffsetsSorted points) (hl : points.getLast? = some p) :
    ∀ q ∈ points, q.sampleOffset ≤ p.sampleOffset := by
  obtain ⟨ys, rfl⟩ := List.getLast?_eq_some_iff.mp hl
  intro q hq
  unfold OffsetsSorted at hs
  rw [List.pairwise_append] at hs
  rcases List.mem_append.mp hq with h | h
  · exact hs.2.2 q h p (List.mem_singleton.mpr rfl)
  · rw [List.mem_singleton.mp h]

theorem process_outputPoints (p : UnderlayProcessor) (buffer : SharedAudioBuffer)
    (data : ProcessData) :
    (process p buffer data).outputPoints = (processHostTempo p data).2
      ∧ (process p buffer data).processor.lastHostTempo_ = (processHostTempo p data).1.lastHostTempo_
      ∧ (process p buffer data).processor.hostTempoSent_
          = (processHostTempo p data).1.hostTempoSent_ := by
  unfold process
  simp only
  split
  · exact ⟨rfl, rfl, rfl⟩
  · split
    · exact ⟨rfl, rfl, rfl⟩
    · split <;> exact ⟨rfl, rfl, rfl⟩

theorem roundHalfEven_near (m : Rat) :
    m - 1 / 2 ≤ (roundHalfEven m : Rat) ∧ (roundHalfEven m : Rat) ≤ m + 1 / 2 := by
  have h1 : (⌊m⌋ : Rat) ≤ m := Int.floor_le m
  have h2 : m < (⌊m⌋ : Rat) + 1 := Int.lt_floor_add_one m
  unfold roundHalfEven
  simp only
  split
  · constructor <;> linarith
  · split
    · push_cast; constructor <;> linarith
    · split
      · constructor <;> linarith
      · push_cast; constructor <;> linarith

theorem roundHalfEven_gt_odd (m : Rat) (D : Int) (hD : D % 2 = 1) :
    D < roundHalfEven m ↔ (D : Rat) + 1 / 2 ≤ m := by
  have h1 : (⌊m⌋ : Rat) ≤ m := Int.floor_le m
  have h2 : m < (⌊m⌋ : Rat) + 1 := Int.lt_floor_add_one m
  constructor
  · intro h
    by_contra hlt
    push_neg at hlt
    have hf : ⌊m⌋ ≤ D := by
      have : (⌊m⌋ : Rat) < (D : Rat) + 1 := by linarith
      have : ⌊m⌋ < D + 1 := by exact_mod_cast this
      omega
    unfold roundHalfEven at h
    simp only at h
    split at h
    · omega
    · rename_i hge
      have hfD : ⌊m⌋ < D := by
        by_contra hc
        have : ⌊m⌋ = D := by omega
        rw [this] at hge
        exact hge (by linarith)
      split at h
      · omega
      · split at h <;> omega
  · intro h
    have hf : D ≤ ⌊m⌋ := by
      apply Int.le_floor.mpr
      linarith
    unfold roundHalfEven
    simp only
    split
    · rename_i hlt
      have : D < ⌊m⌋ := by
        by_contra hc
        have : ⌊m⌋ = D := by omega
        rw [this] at hlt
        linarith
      exact this
    · split
      · omega
      · split
        · rename_i heven
          omega
        · omega


theorem log_bounds (a : Rat) (ha : 0 < a) :
    (2 : Rat) ^ Int.log 2 a ≤ a ∧ a < (2 : Rat) ^ (Int.log 2 a + 1) := by
  have h1 := Int.zpow_log_le_self (b := 2) (r := a) (by norm_num) ha
  have h2 := Int.lt_zpow_succ_log_self (b := 2) (by norm_num) a
  simp only [Nat.cast_ofNat] at h1 h2
  exact ⟨h1, h2⟩

theorem roundMagnitude_gt_epsilon (a : Rat) (ha : 0 ≤ a) :
    tempoEpsilon < roundMagnitude a ↔ tempoEpsilon + 1 / 2 ^ 60 ≤ a := by
  unfold roundMagnitude
  by_cases h0 : a = 0
  · subst h0
    simp only [if_true]
    norm_num [tempoEpsilon]
  · rw [if_neg h0]
    have hpos : 0 < a := lt_of_le_of_ne ha (Ne.symm h0)
    obtain ⟨he1, he2⟩ := log_bounds a hpos
    have hq : 0 < doubleQuantum a := by
      unfold doubleQuantum
      exact zpow_pos (by norm_num) _
    obtain ⟨hn1, hn2⟩ := roundHalfEven_near (a / doubleQuantum a)
    have hlo : a - doubleQuantum a / 2 ≤ roundHalfEven (a / doubleQuantum a) * doubleQuantum a := by
      have := mul_le_mul_of_nonneg_right hn1 hq.le
      rw [sub_mul, div_mul_cancel₀ _ hq.ne'] at this
      linarith
    have hhi : (roundHalfEven (a / doubleQuantum a) : Rat) * doubleQuantum a
        ≤ a + doubleQuantum a / 2 := by
      have := mul_le_mul_of_nonneg_right hn2 hq.le
      rw [add_mul, div_mul_cancel₀ _ hq.ne'] at this
      linarith
    rcases lt_trichotomy (Int.log 2 a) (-7) with hlt | heq | hgt
    · -- below the binade of the threshold
      have hq60 : doubleQuantum a ≤ (2 : Rat) ^ (-60 : Int) := by
        unfold doubleQuantum
        apply zpow_le_zpow_right₀ (by norm_num)
        have : max (Int.log 2 a) (-1022) ≤ -8 := max_le (by omega) (by norm_num)
        omega
      have ha7 : a < (2 : Rat) ^ (-7 : Int) :=
        lt_of_lt_of_le he2 (zpow_le_zpow_right₀ (by norm_num) (by omega))
      norm_num at hq60 ha7
      constructor
      · intro h
        exfalso
        unfold tempoEpsilon at h
        norm_num at h
        linarith
      · intro h
        exfalso
        unfold tempoEpsilon at h
        norm_num at h
        linarith
    · -- the binade of the threshold
      have hqe : doubleQuantum a = 1 / 2 ^ 59 := by
        unfold doubleQuantum
        rw [heq]
        norm_num
      rw [hqe]
      have hD := roundHalfEven_gt_odd (a / (1 / 2 ^ 59)) 5764607523034235 (by norm_num)
      constructor
      · intro h
        have h' : (5764607523034235 : Int) < roundHalfEven (a / (1 / 2 ^ 59)) := by
          have : ((5764607523034235 : Int) : Rat) < (roundHalfEven (a / (1 / 2 ^ 59)) : Rat) := by
            unfold tempoEpsilon at h
            push_cast
            have h2 : (0:Rat) < 1 / 2 ^ 59 := by norm_num
            by_contra hc
            push_neg at hc
            have := mul_le_mul_of_nonneg_right hc h2.le
            linarith
          exact_mod_cast this
        have := hD.mp h'
        rw [le_div_iff₀ (by norm_num)] at this
        unfold tempoEpsilon
        push_cast at this
        linarith
      · intro h
        have h' : ((5764607523034235 : Int) : Rat) + 1 / 2 ≤ a / (1 / 2 ^ 59) := by
          rw [le_div_iff₀ (by norm_num)]
          unfold tempoEpsilon at h
          push_cast
          linarith
        have h2 := hD.mpr h'
        have h3 : ((5764607523034235 : Int) : Rat) + 1 ≤ (roundHalfEven (a / (1 / 2 ^ 59)) : Rat) := by
          exact_mod_cast h2
        unfold tempoEpsilon
        have hq2 : (0:Rat) < 1 / 2 ^ 59 := by norm_num
        have := mul_le_mul_of_nonneg_right h3 hq2.le
        push_cast at this
        linarith
    · -- above the binade of the threshold
      have hqe : doubleQuantum a = (2 : Rat) ^ Int.log 2 a * (2 : Rat) ^ (-52 : Int) := by
        unfold doubleQuantum
        rw [max_eq_left (by omega), sub_eq_add_neg, zpow_add₀ (by norm_num)]
      have hqa : doubleQuantum a ≤ a * (2 : Rat) ^ (-52 : Int) := by
        rw [hqe]
        exact mul_le_mul_of_nonneg_right he1 (zpow_pos (by norm_num) _).le
      have ha6 : (2 : Rat) ^ (-6 : Int) ≤ a :=
        le_trans (zpow_le_zpow_right₀ (by norm_num) (by omega)) he1
      norm_num at hqa ha6
      constructor
      · intro _
        unfold tempoEpsilon
        norm_num
        linarith
      · intro _
        unfold tempoEpsilon
        norm_num
        linarith


theorem roundMagnitude_nonneg (a : Rat) (ha : 0 ≤ a) : 0 ≤ roundMagnitude a := by
  unfold roundMagnitude
  split
  · exact le_refl _
  · have hq : 0 < doubleQuantum a := by
      unfold doubleQuantum
      exact zpow_pos (by norm_num) _
    have hm : 0 ≤ a / doubleQuantum a := div_nonneg ha hq.le
    have hf : 0 ≤ ⌊a / doubleQuantum a⌋ := Int.floor_nonneg.mpr hm
    have hr : 0 ≤ roundHalfEven (a / doubleQuantum a) := by
      unfold roundHalfEven
      simp only
      split
      · exact hf
      · split
        · omega
        · split <;> omega
    exact mul_nonneg (by exact_mod_cast hr) hq.le

theorem abs_roundDouble (x : Rat) : |roundDouble x| = roundMagnitude |x| := by
  unfold roundDouble
  split
  · rename_i h
    rw [abs_neg, abs_of_neg h, abs_of_nonneg (roundMagnitude_nonneg _ (by linarith))]
  · rename_i h
    push_neg at h
    rw [abs_of_nonneg h, abs_of_nonneg (roundMagnitude_nonneg _ h)]

theorem abs_roundDouble_gt_epsilon (x : Rat) :
    tempoEpsilon < |roundDouble x| ↔ tempoEpsilon + 1 / 2 ^ 60 ≤ |x| := by
  rw [abs_roundDouble]
  exact roundMagnitude_gt_epsilon _ (abs_nonneg x)

theorem abs_roundDouble_le_epsilon (x : Rat) (h : |x| ≤ tempoEpsilon) :
    ¬ |roundDouble x| > tempoEpsilon := by
  intro hgt
  have := (abs_roundDouble_gt_epsilon x).mp hgt
  have hpos : (0 : Rat) < 1 / 2 ^ 60 := by norm_num
  linarith

theorem processHostTempo_keep (p : UnderlayProcessor) (data : ProcessData)
    (h : ∀ ctx, data.processContext = some ctx → ctx.tempoValid = true →
      p.hostTempoSent_ = true ∧ ¬ |roundDouble (ctx.tempo - p.lastHostTempo_)| > tempoEpsilon) :
    processHostTempo p data = (p, []) := by
  unfold processHostTempo
  cases hctx : data.processContext with
  | none => rfl
  | some ctx =>
    simp only
    by_cases hv : ctx.tempoValid = true
    · obtain ⟨hsent, hclose⟩ := h ctx hctx hv
      rw [if_pos hv, if_neg]
      rintro (hs | hf)
      · rw [hsent] at hs; exact Bool.noConfusion hs
      · exact hclose hf
    · rw [if_neg hv]

theorem processHostTempo_latch (p : UnderlayProcessor) (data : ProcessData)
    (ctx : ProcessContext) (hctx : data.processContext = some ctx)
    (hvalid : ctx.tempoValid = true)
    (hpass : p.hostTempoSent_ = false
      ∨ |roundDouble (ctx.tempo - p.lastHostTempo_)| > tempoEpsilon) :
    (processHostTempo p data).1.lastHostTempo_ = ctx.tempo
      ∧ (processHostTempo p data).1.hostTempoSent_ = true := by
  unfold processHostTempo
  rw [hctx]
  simp only
  rw [if_pos hvalid, if_pos hpass]
  split
  · exact ⟨rfl, rfl⟩
  · split <;> exact ⟨rfl, rfl⟩

theorem processHostTempo_report (p : UnderlayProcessor) (data : ProcessData)
    (ctx : ProcessContext) (accepts : ParamID → Bool) (hctx : data.processContext = some ctx)
    (hvalid : ctx.tempoValid = true) (hout : data.outputParameterChanges = some accepts)
    (hacc : accepts kParamBPM = true)
    (hfar : p.hostTempoSent_ = false
      ∨ |roundDouble (ctx.tempo - p.lastHostTempo_)| > tempoEpsilon) :
    processHostTempo p data
      = ({ p with lastHostTempo_ := ctx.tempo, hostTempoSent_ := true },
         [{ parameterId := kParamBPM, sampleOffset := 0, value := normalizedBPM ctx.tempo }]) := by
  unfold processHostTempo
  rw [hctx]
  simp only
  rw [if_pos hvalid, if_pos hfar, hout]
  simp only
  rw [if_pos hacc]

theorem processAll_append (xs ys : List ProcessData) :
    ∀ (p : UnderlayProcessor) (buffer : SharedAudioBuffer),
      processAll p buffer (xs ++ ys)
        = ((processAll (processAll p buffer xs).1 (processAll p buffer xs).2.1 ys).1,
           (processAll (processAll p buffer xs).1 (processAll p buffer xs).2.1 ys).2.1,
           (processAll p buffer xs).2.2
             ++ (processAll (processAll p buffer xs).1 (processAll p buffer xs).2.1 ys).2.2) := by
  induction xs with
  | nil => intro p buffer; rfl
  | cons x xs ih =>
    intro p buffer
    rw [List.cons_append]
    simp only [processAll]
    rw [ih]
    simp only [List.cons_append]

theorem processAll_keeps_latch (mid : List ProcessData) (t0 : Rat) :
    ∀ (p : UnderlayProcessor) (buffer : SharedAudioBuffer),
      p.lastHostTempo_ = t0 → p.hostTempoSent_ = true →
      (∀ d ∈ mid, ∀ cx, d.processContext = some cx → cx.tempoValid = true →
        ¬ |roundDouble (cx.tempo - t0)| > tempoEpsilon) →
      (processAll p buffer mid).1.lastHostTempo_ = t0
        ∧ (processAll p buffer mid).1.hostTempoSent_ = true
        ∧ ∀ out ∈ (processAll p buffer mid).2.2, out = [] := by
  induction mid with
  | nil =>
    intro p buffer hl hs _
    exact ⟨hl, hs, fun out hout => by simp [processAll] at hout⟩
  | cons d ds ih =>
    intro p buffer hl hs hmid
    obtain ⟨ho, h1, h2⟩ := process_outputPoints p buffer d
    have hkeep : processHostTempo p d = (p, []) :=
      processHostTempo_keep p d (fun cx hcx hv => by
        refine ⟨hs, ?_⟩
        rw [hl]
        exact hmid d (List.mem_cons_self d ds) cx hcx hv)
    rw [hkeep] at ho h1 h2
    obtain ⟨r1, r2, r3⟩ := ih (process p buffer d).processor (process p buffer d).buffer
      (by rw [h1]; exact hl) (by rw [h2]; exact hs)
      (fun x hx => hmid x (List.mem_cons_of_mem d hx))
    simp only [processAll]
    refine ⟨r1, r2, ?_⟩
    intro out hout
    rcases List.mem_cons.mp hout with h | h
    · rw [h, ho]
    · exact r3 out h

theorem log_eq_of_bounds (a : Rat) (e : Int) (h1 : (2 : Rat) ^ e ≤ a)
    (h2 : a < (2 : Rat) ^ (e + 1)) : Int.log 2 a = e := by
  have hpos : 0 < a := lt_of_lt_of_le (zpow_pos (by norm_num) _) h1
  have hle : e ≤ Int.log 2 a := by
    apply (Int.zpow_le_iff_le_log (b := 2) (by norm_num) hpos).mp
    simpa using h1
  have hlt : Int.log 2 a < e + 1 := by
    apply (Int.lt_zpow_iff_log_lt (b := 2) (by norm_num) hpos).mp
    simpa using h2
  omega

/-- The `double` nearest to `1 / 100` is `tempoEpsilon`: the value of the literal `0.01`. -/
theorem roundDouble_one_hundredth : roundDouble (1 / 100) = tempoEpsilon := by
  have hlog : Int.log 2 (1 / 100 : Rat) = -7 :=
    log_eq_of_bounds _ _ (by norm_num) (by norm_num)
  have hq : doubleQuantum (1 / 100) = 1 / 2 ^ 59 := by
    unfold doubleQuantum
    rw [hlog]
    norm_num
  have hfloor : ⌊(1 / 100 : Rat) / (1 / 2 ^ 59)⌋ = 5764607523034234 := by
    rw [Int.floor_eq_iff]
    constructor <;> norm_num
  unfold roundDouble roundMagnitude
  rw [if_neg (by norm_num), if_neg (by norm_num), hq]
  unfold roundHalfEven
  simp only [hfloor]
  norm_num [tempoEpsilon]

/-- At the boundary: with `0.0` latched, a call whose tempo is the `double` `0.01` fails
the change test, adds no point and leaves the latch at `0.0`. -/
theorem tempo_at_epsilon_not_reported :
    (process ⟨fun _ => none, 0, true⟩ fresh (tempoCall tempoEpsilon)).outputPoints = []
    ∧ (process ⟨fun _ => none, 0, true⟩ fresh (tempoCall tempoEpsilon)).processor.lastHostTempo_
        = 0 := by
  obtain ⟨o1, o2, _⟩ := process_outputPoints ⟨fun _ => none, 0, true⟩ fresh
    (tempoCall tempoEpsilon)
  have hkeep : processHostTempo ⟨fun _ => none, 0, true⟩ (tempoCall tempoEpsilon)
      = (⟨fun _ => none, 0, true⟩, []) :=
    processHostTempo_keep _ _ (fun cx hcx _ => by
      have e : cx = ⟨true, tempoEpsilon⟩ := (Option.some.inj hcx).symm
      refine ⟨rfl, ?_⟩
      rw [e]
      exact abs_roundDouble_le_epsilon _ (by
        simp only [sub_zero]
        rw [abs_of_nonneg (by norm_num [tempoEpsilon])]))
  rw [hkeep] at o1 o2
  exact ⟨o1, o2⟩

/-- C7, counterexample: three calls with valid tempi 120, 120 + 1/128 and 120 + 1/64 (all
exact in binary floating point). The second call reports nothing and leaves the latch at
120; the third call's tempo differs from the tempo of the call before it by 1/128 < 0.01,
yet it adds a BPM point, because it is compared with the latched 120. -/
theorem tempo_drift_is_reported :
    |(120 + 1 / 64 : Rat) - (120 + 1 / 128)| < 1 / 100
    ∧ (processAll initial fresh
        [tempoCall 120, tempoCall (120 + 1 / 128), tempoCall (120 + 1 / 64)]).2.2
      = [[⟨kParamBPM, 0, normalizedBPM 120⟩], [],
         [⟨kParamBPM, 0, normalizedBPM (120 + 1 / 64)⟩]] := by
  refine ⟨by norm_num [abs_lt], ?_⟩
  simp [processAll, process, processHostTempo, tempoCall, initial, updateParameters,
    abs_roundDouble_gt_epsilon]
  norm_num [tempoEpsilon, le_abs, abs_lt]

/-- C7, amended: in a run of `process` calls, let `c0` be a call with a valid tempo `t0` that
passes the change test (nothing latched yet, or `|t0 - lastHostTempo_| > 0.01` in `double`
arithmetic), followed by calls `mid` none of which passes it (each has no context, no valid
tempo, or a valid tempo whose `double` difference from `t0` is at most `0.01`). Then
`lastHostTempo_` is still `t0` after them, and a next call `c` with a valid tempo `t` that
differs from `t0` by at most `0.01` adds no outbound point and leaves the latch as it is.
So the tempo a call is compared with is that of the most recent earlier call that passed
the test, not that of the most recent earlier call. Step by step, from any state: a call
with a valid tempo within `0.01` of a latched tempo adds no point and keeps the latch; a
call without a valid tempo adds no point and keeps the latch; a call that passes the test
latches its tempo. -/
theorem tempo_latch_governs_report (p : UnderlayProcessor) (buffer : SharedAudioBuffer)
    (pre mid : List ProcessData) (c0 c : ProcessData) (ctx0 ctx : ProcessContext)
    (h0 : c0.processContext = some ctx0) (hv0 : ctx0.tempoValid = true)
    (hpass : (processAll p buffer pre).1.hostTempoSent_ = false
      ∨ |roundDouble (ctx0.tempo - (processAll p buffer pre).1.lastHostTempo_)| > tempoEpsilon)
    (hmid : ∀ d ∈ mid, ∀ cx, d.processContext = some cx → cx.tempoValid = true →
      ¬ |roundDouble (cx.tempo - ctx0.tempo)| > tempoEpsilon)
    (hc : c.processContext = some ctx) (_hv : ctx.tempoValid = true)
    (hclose : |ctx.tempo - ctx0.tempo| ≤ tempoEpsilon) :
    (processAll p buffer (pre ++ c0 :: mid)).1.lastHostTempo_ = ctx0.tempo
    ∧ (processAll p buffer (pre ++ c0 :: mid)).1.hostTempoSent_ = true
    ∧ (process (processAll p buffer (pre ++ c0 :: mid)).1
        (processAll p buffer (pre ++ c0 :: mid)).2.1 c).outputPoints = []
    ∧ (process (processAll p buffer (pre ++ c0 :: mid)).1
        (processAll p buffer (pre ++ c0 :: mid)).2.1 c).processor.lastHostTempo_ = ctx0.tempo
    ∧ (process (processAll p buffer (pre ++ c0 :: mid)).1
        (processAll p buffer (pre ++ c0 :: mid)).2.1 c).processor.hostTempoSent_ = true
    ∧ (processAll p buffer ((pre ++ c0 :: mid) ++ [c])).2.2.getLast? = some []
    ∧ (∀ (q : UnderlayProcessor) (b : SharedAudioBuffer) (d : ProcessData)
        (cx : ProcessContext), d.processContext = some cx → cx.tempoValid = true →
        q.hostTempoSent_ = true → |cx.tempo - q.lastHostTempo_| ≤ tempoEpsilon →
          (process q b d).outputPoints = []
          ∧ (process q b d).processor.lastHostTempo_ = q.lastHostTempo_
          ∧ (process q b d).processor.hostTempoSent_ = true)
    ∧ (∀ (q : UnderlayProcessor) (b : SharedAudioBuffer) (d : ProcessData),
        (∀ cx, d.processContext = some cx → cx.tempoValid = false) →
          (process q b d).outputPoints = []
          ∧ (process q b d).processor.lastHostTempo_ = q.lastHostTempo_
          ∧ (process q b d).processor.hostTempoSent_ = q.hostTempoSent_)
    ∧ (∀ (q : UnderlayProcessor) (b : SharedAudioBuffer) (d : ProcessData)
        (cx : ProcessContext), d.processContext = some cx → cx.tempoValid = true →
        (q.hostTempoSent_ = false
          ∨ |roundDouble (cx.tempo - q.lastHostTempo_)| > tempoEpsilon) →
          (process q b d).processor.lastHostTempo_ = cx.tempo
          ∧ (process q b d).processor.hostTempoSent_ = true) := by
  have stepQuiet : ∀ (q : UnderlayProcessor) (b : SharedAudioBuffer) (d : ProcessData)
      (cx : ProcessContext), d.processContext = some cx → cx.tempoValid = true →
      q.hostTempoSent_ = true → |cx.tempo - q.lastHostTempo_| ≤ tempoEpsilon →
        (process q b d).outputPoints = []
        ∧ (process q b d).processor.lastHostTempo_ = q.lastHostTempo_
        ∧ (process q b d).processor.hostTempoSent_ = true := by
    intro q b d cx hcx _ hs hcl
    obtain ⟨a1, a2, a3⟩ := process_outputPoints q b d
    have hk : processHostTempo q d = (q, []) :=
      processHostTempo_keep q d (fun cy hcy _ => by
        have e : cy = cx := Option.some.inj (hcy.symm.trans hcx)
        rw [e]
        exact ⟨hs, abs_roundDouble_le_epsilon _ hcl⟩)
    rw [hk] at a1 a2 a3
    exact ⟨a1, a2, a3.trans hs⟩
  have stepInvalid : ∀ (q : UnderlayProcessor) (b : SharedAudioBuffer) (d : ProcessData),
      (∀ cx, d.processContext = some cx → cx.tempoValid = false) →
        (process q b d).outputPoints = []
        ∧ (process q b d).processor.lastHostTempo_ = q.lastHostTempo_
        ∧ (process q b d).processor.hostTempoSent_ = q.hostTempoSent_ := by
    intro q b d hinv
    obtain ⟨a1, a2, a3⟩ := process_outputPoints q b d
    have hk : processHostTempo q d = (q, []) :=
      processHostTempo_keep q d (fun cy hcy hv => by
        rw [hinv cy hcy] at hv
        exact Bool.noConfusion hv)
    rw [hk] at a1 a2 a3
    exact ⟨a1, a2, a3⟩
  have stepPass : ∀ (q : UnderlayProcessor) (b : SharedAudioBuffer) (d : ProcessData)
      (cx : ProcessContext), d.processContext = some cx → cx.tempoValid = true →
      (q.hostTempoSent_ = false
        ∨ |roundDouble (cx.tempo - q.lastHostTempo_)| > tempoEpsilon) →
        (process q b d).processor.lastHostTempo_ = cx.tempo
        ∧ (process q b d).processor.hostTempoSent_ = true := by
    intro q b d cx hcx hv hp
    obtain ⟨_, a2, a3⟩ := process_outputPoints q b d
    obtain ⟨b1, b2⟩ := processHostTempo_latch q d cx hcx hv hp
    exact ⟨a2.trans b1, a3.trans b2⟩
  obtain ⟨_, l1, l2⟩ := process_outputPoints (processAll p buffer pre).1
    (processAll p buffer pre).2.1 c0
  obtain ⟨m1, m2⟩ := processHostTempo_latch (processAll p buffer pre).1 c0 ctx0 h0 hv0 hpass
  obtain ⟨k1, k2, _⟩ := processAll_keeps_latch mid ctx0.tempo
    (process (processAll p buffer pre).1 (processAll p buffer pre).2.1 c0).processor
    (process (processAll p buffer pre).1 (processAll p buffer pre).2.1 c0).buffer
    (by rw [l1]; exact m1) (by rw [l2]; exact m2) hmid
  have hS1 : (processAll p buffer (pre ++ c0 :: mid)).1.lastHostTempo_ = ctx0.tempo := by
    rw [processAll_append]
    simp only [processAll]
    exact k1
  have hS2 : (processAll p buffer (pre ++ c0 :: mid)).1.hostTempoSent_ = true := by
    rw [processAll_append]
    simp only [processAll]
    exact k2
  obtain ⟨o1, o2, o3⟩ := process_outputPoints (processAll p buffer (pre ++ c0 :: mid)).1
    (processAll p buffer (pre ++ c0 :: mid)).2.1 c
  have hkeep : processHostTempo (processAll p buffer (pre ++ c0 :: mid)).1 c
      = ((processAll p buffer (pre ++ c0 :: mid)).1, []) :=
    processHostTempo_keep _ c (fun cx hcx _ => by
      have e : cx = ctx := Option.some.inj (hcx.symm.trans hc)
      refine ⟨hS2, ?_⟩
      rw [e, hS1]
      exact abs_roundDouble_le_epsilon _ hclose)
  rw [hkeep] at o1 o2 o3
  refine ⟨hS1, hS2, o1, o2.trans hS1, o3.trans hS2, ?_, stepQuiet, stepInvalid, stepPass⟩
  rw [processAll_append (pre ++ c0 :: mid) [c]]
  simp only [processAll]
  rw [List.getLast?_concat]
  exact congrArg some o1

/-- C7, amended, at a concrete run: tempo 120 is latched, a call without context and a call
with tempo 120 + 1/128 follow, and a call with tempo 120 + 1/256 adds no point. -/
theorem tempo_latch_governs_report_witness :
    (processAll initial fresh
        ([] ++ tempoCall 120 :: [⟨none, none, none, [], 0⟩, tempoCall (120 + 1 / 128)])
      ).1.lastHostTempo_ = 120
    ∧ (processAll initial fresh
        (([] ++ tempoCall 120 :: [⟨none, none, none, [], 0⟩, tempoCall (120 + 1 / 128)])
          ++ [tempoCall (120 + 1 / 256)])).2.2.getLast? = some [] :=
  have hmid : ∀ d ∈ [(⟨none, none, none, [], 0⟩ : ProcessData), tempoCall (120 + 1 / 128)],
      ∀ cx, d.processContext = some cx → cx.tempoValid = true →
        ¬ |roundDouble (cx.tempo - (⟨true, 120⟩ : ProcessContext).tempo)| > tempoEpsilon := by
    intro d hd cx hcx _
    rcases List.mem_cons.mp hd with h | h
    · rw [h] at hcx
      exact Option.noConfusion hcx
    · rw [List.mem_singleton.mp h] at hcx
      have e : cx = ⟨true, 120 + 1 / 128⟩ := (Option.some.inj hcx).symm
      rw [e]
      exact abs_roundDouble_le_epsilon _ (by norm_num [tempoEpsilon, abs_le])
  ⟨(tempo_latch_governs_report initial fresh [] _ (tempoCall 120) (tempoCall (120 + 1 / 256))
      ⟨true, 120⟩ ⟨true, 120 + 1 / 256⟩ rfl rfl (Or.inl rfl) hmid rfl rfl
      (by norm_num [tempoEpsilon, abs_le])).1,
   (tempo_latch_governs_report initial fresh [] _ (tempoCall 120) (tempoCall (120 + 1 / 256))
      ⟨true, 120⟩ ⟨true, 120 + 1 / 256⟩ rfl rfl (Or.inl rfl) hmid rfl rfl
      (by norm_num [tempoEpsilon, abs_le])).2.2.2.2.2.1⟩

theorem normalizedBPM_range (t : Rat) : 0 ≤ normalizedBPM t ∧ normalizedBPM t ≤ 1 := by
  unfold normalizedBPM
  exact ⟨le_max_left _ _, max_le (by norm_num) (min_le_left _ _)⟩

/-- C8: every outbound point that `process` adds is the BPM point at offset 0 for the valid
host tempo `t` of the call, with value `max 0 (min 1 ((t - 60) / 140))`, which lies in
`[0, 1]`; the mapping sends 60 to 0, 130 to 1/2 and 200 to 1 (over the rationals). -/
theorem tempo_point_value (p : UnderlayProcessor) (buffer : SharedAudioBuffer)
    (data : ProcessData) (pt : OutPoint) (h : pt ∈ (process p buffer data).outputPoints) :
    (∃ ctx : ProcessContext, data.processContext = some ctx ∧ ctx.tempoValid = true
        ∧ pt.parameterId = kParamBPM ∧ pt.sampleOffset = 0
        ∧ pt.value = max 0 (min 1 ((ctx.tempo - 60) / 140)))
    ∧ 0 ≤ pt.value ∧ pt.value ≤ 1
    ∧ normalizedBPM 60 = 0 ∧ normalizedBPM 130 = 1 / 2 ∧ normalizedBPM 200 = 1 := by
  rw [(process_outputPoints p buffer data).1] at h
  have key : ∃ ctx : ProcessContext, data.processContext = some ctx ∧ ctx.tempoValid = true
      ∧ pt = ⟨kParamBPM, 0, normalizedBPM ctx.tempo⟩ := by
    cases hctx : data.processContext with
    | none =>
      unfold processHostTempo at h
      rw [hctx] at h
      simp at h
    | some ctx =>
      unfold processHostTempo at h
      rw [hctx] at h
      simp only at h
      by_cases hv : ctx.tempoValid = true
      · rw [if_pos hv] at h
        by_cases hfar : p.hostTempoSent_ = false
            ∨ |roundDouble (ctx.tempo - p.lastHostTempo_)| > tempoEpsilon
        · rw [if_pos hfar] at h
          cases hout : data.outputParameterChanges with
          | none =>
            rw [hout] at h
            simp at h
          | some accepts =>
            rw [hout] at h
            simp only at h
            by_cases hacc : accepts kParamBPM = true
            · rw [if_pos hacc] at h
              exact ⟨ctx, rfl, hv, List.mem_singleton.mp h⟩
            · rw [if_neg hacc] at h
              simp at h
        · rw [if_neg hfar] at h
          simp at h
      · rw [if_neg hv] at h
        simp at h
  obtain ⟨ctx, hctx, hv, rfl⟩ := key
  refine ⟨⟨ctx, hctx, hv, rfl, rfl, rfl⟩, (normalizedBPM_range _).1, (normalizedBPM_range _).2,
    ?_, ?_, ?_⟩ <;> norm_num [normalizedBPM]

/-- C8 at concrete calls: the first call with tempo 130 reports 1/2. -/
theorem tempo_point_value_witness :
    (⟨kParamBPM, 0, 1 / 2⟩ : OutPoint) ∈ (process initial fresh (tempoCall 130)).outputPoints
    ∧ (0 : Rat) ≤ (⟨kParamBPM, 0, 1 / 2⟩ : OutPoint).value
    ∧ (⟨kParamBPM, 0, 1 / 2⟩ : OutPoint).value ≤ 1 :=
  have hmem : (⟨kParamBPM, 0, 1 / 2⟩ : OutPoint)
      ∈ (process initial fresh (tempoCall 130)).outputPoints := by
    norm_num [process, processHostTempo, tempoCall, initial, updateParameters, normalizedBPM]
  ⟨hmem, (tempo_point_value initial fresh (tempoCall 130) _ hmem).2.1,
    (tempo_point_value initial fresh (tempoCall 130) _ hmem).2.2.1⟩

end Underlay
